import Mathlib

/-!
# Queens-Game: shallow embedding and verification

This file embeds the two-player, region-constrained N-Queens game engine
(`jar.service.QueensGameService`, `jar.service.DynamicProgrammingSolverService`,
`jar.service.QueensSolverService`, `jar.service.DnCBacktrackingSolverService`,
`jar.service.MinimaxDpSolverService` and the `jar.model` classes) in Lean and
proves properties of the embedded code.

Modelling conventions:
* Java `int` cell positions, players and counters are modelled as `Nat`
  (all positions handled by the running system are non-negative);
  diagonal indices `row - col`, which can be negative, are modelled as `Int`.
* A Java method that can throw (an out-of-bounds `List.get`, or the division
  by zero in `position / n` when `n = 0`) is modelled as returning an
  `Option`, with `none` for the exception.
* Mutation of a `GameState` is modelled by returning the updated record;
  the Java code returns the same (mutated) object it received.
* Unbounded recursion (the solvers) is modelled with an explicit fuel
  parameter; theorems assume enough fuel for the recursion to complete,
  which is `n + 1` levels for the row-by-row solvers.
-/

namespace Queens

/-- `jar.model.GameState` (fields of the backend class; `solverType` is used
by `QueensGameService.initializeGame`). `winner` is `none` for Java `null`. -/
structure GameState where
  n : Nat
  regions : List Nat
  queenPositions : List Nat
  currentPlayer : Nat
  gameOver : Bool
  winner : Option String
  message : String
  validMoves : List Nat
  player1Queens : Nat
  player2Queens : Nat
  solverType : String
deriving Repr, DecidableEq

/-- `jar.model.Move`. -/
structure Move where
  position : Nat
  player : Nat
  gameState : GameState
deriving Repr, DecidableEq

/-- `jar.model.QueensSolution`. -/
structure QueensSolution where
  queenPositions : List Nat
  solved : Bool
  message : String
deriving Repr, DecidableEq

/-- Row of a cell index: `position / n`. -/
def rowOf (n p : Nat) : Nat := p / n

/-- Column of a cell index: `position % n`. -/
def colOf (n p : Nat) : Nat := p % n

/-- Declarative attack predicate: two cells share a row, a column, or a
diagonal (`|Δrow| = |Δcol|`) on an `n × n` board. -/
def attacksSpec (n p q : Nat) : Bool :=
  decide (rowOf n p = rowOf n q ∨ colOf n p = colOf n q ∨
    ((rowOf n p : Int) - (rowOf n q : Int)).natAbs
      = ((colOf n p : Int) - (colOf n q : Int)).natAbs)

theorem attacksSpec_symm (n p q : Nat) : attacksSpec n p q = attacksSpec n q p := by
  simp only [attacksSpec, decide_eq_decide]
  constructor <;> rintro (h | h | h)
  · exact Or.inl h.symm
  · exact Or.inr (Or.inl h.symm)
  · exact Or.inr (Or.inr (by omega))
  · exact Or.inl h.symm
  · exact Or.inr (Or.inl h.symm)
  · exact Or.inr (Or.inr (by omega))

/-! ## `jar.service.QueensGameService` -/

/-- Loop body of `QueensGameService.isSafePosition`: scans the placed queens
and reports `false` on a shared row, column, or diagonal
(`Math.abs(row - qRow) == Math.abs(col - qCol)`). -/
def isSafePositionLoop (n row col : Nat) : List Nat → Bool
  | [] => true
  | q :: rest =>
    if row = q / n then false
    else if col = q % n then false
    else if ((row : Int) - ((q / n : Nat) : Int)).natAbs
              = ((col : Int) - ((q % n : Nat) : Int)).natAbs then false
    else isSafePositionLoop n row col rest

/-- `QueensGameService.isSafePosition`. The method first computes
`position / n`, which throws `ArithmeticException` when `n = 0` (modelled as
`none`). -/
def isSafePosition (position : Nat) (queenPositions : List Nat) (n : Nat) : Option Bool :=
  if n = 0 then none
  else some (isSafePositionLoop n (position / n) (position % n) queenPositions)

/-- Loop body of `QueensGameService.isRegionOccupied`: compares
`regions.get(queenPos)` with the candidate region; an out-of-range queen
position throws `IndexOutOfBoundsException` (modelled as `none`). -/
def regionLoop (regions : List Nat) (region : Nat) : List Nat → Option Bool
  | [] => some false
  | q :: rest =>
    match regions[q]? with
    | none => none
    | some r => if r = region then some true else regionLoop regions region rest

/-- `QueensGameService.isRegionOccupied`. A `null` regions list and an empty
one behave identically (`return false`), so both are modelled as `[]`. -/
def isRegionOccupied (position : Nat) (gameState : GameState) : Option Bool :=
  if gameState.regions = [] then some false
  else
    match gameState.regions[position]? with
    | none => none
    | some region => regionLoop gameState.regions region gameState.queenPositions

/-- `QueensGameService.isSafe`: `isSafePosition(...) && !isRegionOccupied(...)`
with Java short-circuit evaluation (the region check runs only when the
attack check passed). -/
def isSafe (gameState : GameState) (position : Nat) : Option Bool :=
  match isSafePosition position gameState.queenPositions gameState.n with
  | none => none
  | some false => some false
  | some true =>
    match isRegionOccupied position gameState with
    | none => none
    | some b => some (!b)

/-- Loop of `QueensGameService.getAllValidPositions` over a list of cell
indices, collecting the safe ones in scan order. -/
def getAllValidPositionsAux (gameState : GameState) : List Nat → Option (List Nat)
  | [] => some []
  | i :: rest =>
    match isSafe gameState i with
    | none => none
    | some true => (getAllValidPositionsAux gameState rest).map (fun l => i :: l)
    | some false => getAllValidPositionsAux gameState rest

/-- `QueensGameService.getAllValidPositions`: scan cells `0 .. n*n - 1`. -/
def getAllValidPositions (gameState : GameState) : Option (List Nat) :=
  getAllValidPositionsAux gameState (List.range (gameState.n * gameState.n))

/-- `new GameState(n, regions)` (the Java field-initializing constructor)
followed by the `setMessage` call at the top of `initializeGame`. -/
def initState (n : Nat) (regions : List Nat) : GameState :=
  { n := n, regions := regions, queenPositions := [], currentPlayer := 1,
    gameOver := false, winner := none,
    message := "Game initialized. Player 1\x27s turn.",
    validMoves := [], player1Queens := 0, player2Queens := 0, solverType := "" }

/-- `QueensGameService.initializeGame` (also the body of the controller's
`initGame` and `resetGame` endpoints, which delegate to it unvalidated). -/
def initializeGame (n : Nat) (regions : List Nat) : Option GameState :=
  let gameState := initState n regions
  match getAllValidPositions gameState with
  | none => none
  | some validMoves =>
    some { gameState with validMoves := validMoves, solverType := "dp" }

/-- The queen-placement block of `QueensGameService.makeMove`: append the
position to `queenPositions` and increment the mover's queen count. -/
def afterPlace (gameState : GameState) (position : Nat) : GameState :=
  let gs1 := { gameState with queenPositions := gameState.queenPositions ++ [position] }
  if gs1.currentPlayer = 1 then { gs1 with player1Queens := gs1.player1Queens + 1 }
  else { gs1 with player2Queens := gs1.player2Queens + 1 }

/-- `QueensGameService.makeMove`. -/
def makeMove (move : Move) : Option GameState :=
  let gameState := move.gameState
  let position := move.position
  match isSafe gameState position with
  | none => none
  | some false =>
    some { gameState with message := "Invalid move! Queen would be under attack." }
  | some true =>
    let gs2 := afterPlace gameState position
    match getAllValidPositions gs2 with
    | none => none
    | some validMoves =>
      if validMoves = [] then
        let winner := if gs2.currentPlayer = 1 then "Player 1" else "Player 2"
        some { gs2 with gameOver := true, winner := some winner,
                        message := winner ++ " wins! Opponent has no valid moves." }
      else
        let gs3 := { gs2 with
                       currentPlayer := if gs2.currentPlayer = 1 then 2 else 1,
                       validMoves := validMoves }
        some { gs3 with message := "Player " ++ toString gs3.currentPlayer
                          ++ "\x27s turn. " ++ toString validMoves.length
                          ++ " valid moves available." }

/-- `QueensGameService.getAllValidMoves` (the `valid-moves` endpoint). -/
def getAllValidMoves (gameState : GameState) : Option GameState :=
  match getAllValidPositions gameState with
  | none => none
  | some validMoves =>
    some { gameState with validMoves := validMoves,
                          message := toString validMoves.length ++ " valid moves available." }

/-! ## Characterization lemmas for the game service -/

theorem regionLoopIsSome (regions : List Nat) (r : Nat) (qs : List Nat)
    (h : ∀ q ∈ qs, q < regions.length) : (regionLoop regions r qs).isSome := by
  induction qs with
  | nil => simp [regionLoop]
  | cons q rest ih =>
    have hq : q < regions.length := h q (by simp)
    simp only [regionLoop, List.getElem?_eq_getElem hq]
    split
    · simp
    · exact ih (fun x hx => h x (List.mem_cons_of_mem _ hx))

theorem regionLoopEqSomeFalseIff (regions : List Nat) (r : Nat) (qs : List Nat) :
    regionLoop regions r qs = some false ↔
      ∀ q ∈ qs, ∃ rq, regions[q]? = some rq ∧ rq ≠ r := by
  induction qs with
  | nil => simp [regionLoop]
  | cons q rest ih =>
    rw [List.forall_mem_cons]
    simp only [regionLoop]
    cases hg : regions[q]? with
    | none =>
      constructor
      · intro h; exact absurd h (by simp)
      · rintro ⟨⟨rq, hrq, -⟩, -⟩; simp [hg] at hrq
    | some rq =>
      by_cases hr : rq = r
      · subst hr
        simp only [if_pos rfl]
        constructor
        · intro h; exact absurd h (by simp)
        · rintro ⟨⟨rq2, hrq2, hne2⟩, -⟩
          exact ((hne2 (Option.some_injective _ hrq2).symm)).elim
      · simp only [if_neg hr, ih]
        constructor
        · intro h; exact ⟨⟨rq, rfl, hr⟩, h⟩
        · exact fun h => h.2

theorem isSafePositionLoopEqTrueIff (n row col : Nat) (qs : List Nat) :
    isSafePositionLoop n row col qs = true ↔
      ∀ q ∈ qs, row ≠ q / n ∧ col ≠ q % n ∧
        ((row : Int) - ((q / n : Nat) : Int)).natAbs
          ≠ ((col : Int) - ((q % n : Nat) : Int)).natAbs := by
  induction qs with
  | nil => simp [isSafePositionLoop]
  | cons q rest ih =>
    rw [List.forall_mem_cons]
    simp only [isSafePositionLoop]
    by_cases h1 : row = q / n
    · rw [if_pos h1]
      constructor
      · intro h; exact absurd h (by simp)
      · rintro ⟨⟨hr, -, -⟩, -⟩; exact absurd h1 hr
    · rw [if_neg h1]
      by_cases h2 : col = q % n
      · rw [if_pos h2]
        constructor
        · intro h; exact absurd h (by simp)
        · rintro ⟨⟨-, hc, -⟩, -⟩; exact absurd h2 hc
      · rw [if_neg h2]
        by_cases h3 : ((row : Int) - ((q / n : Nat) : Int)).natAbs
            = ((col : Int) - ((q % n : Nat) : Int)).natAbs
        · rw [if_pos h3]
          constructor
          · intro h; exact absurd h (by simp)
          · rintro ⟨⟨-, -, hd⟩, -⟩; exact absurd h3 hd
        · rw [if_neg h3, ih]
          constructor
          · intro h; exact ⟨⟨h1, h2, h3⟩, h⟩
          · exact fun h => h.2

/-- The per-queen clause of `isSafePosition` is exactly the negation of the
declarative attack predicate. -/
theorem attacksSpecEqFalseIff (n p q : Nat) :
    attacksSpec n p q = false ↔
      p / n ≠ q / n ∧ p % n ≠ q % n ∧
        (((p / n : Nat) : Int) - ((q / n : Nat) : Int)).natAbs
          ≠ (((p % n : Nat) : Int) - ((q % n : Nat) : Int)).natAbs := by
  simp only [attacksSpec, rowOf, colOf, decide_eq_false_iff_not]
  push_neg
  tauto

theorem isSafeEqTrueElim (gs : GameState) (p : Nat) (h : isSafe gs p = some true) :
    gs.n ≠ 0 ∧
      isSafePositionLoop gs.n (p / gs.n) (p % gs.n) gs.queenPositions = true ∧
      (gs.regions ≠ [] →
        ∃ r, gs.regions[p]? = some r ∧
          ∀ q ∈ gs.queenPositions, ∃ rq, gs.regions[q]? = some rq ∧ rq ≠ r) := by
  unfold isSafe isSafePosition at h
  by_cases hn : gs.n = 0
  · simp [hn] at h
  · rw [if_neg hn] at h
    refine ⟨hn, ?_, ?_⟩
    · by_contra hloop
      rw [Bool.not_eq_true] at hloop
      simp [hloop] at h
    · intro hne
      cases hloop : isSafePositionLoop gs.n (p / gs.n) (p % gs.n) gs.queenPositions with
      | false => simp [hloop] at h
      | true =>
        rw [hloop] at h
        unfold isRegionOccupied at h
        rw [if_neg hne] at h
        cases hg : gs.regions[p]? with
        | none => simp [hg] at h
        | some r =>
          rw [hg] at h
          cases hrl : regionLoop gs.regions r gs.queenPositions with
          | none => simp [hrl] at h
          | some b =>
            cases b with
            | true => simp [hrl] at h
            | false =>
              exact ⟨r, rfl, (regionLoopEqSomeFalseIff gs.regions r gs.queenPositions).mp hrl⟩

theorem isSafeIsSome (gs : GameState) (i : Nat) (hn : gs.n ≠ 0)
    (hi : gs.regions ≠ [] → i < gs.regions.length)
    (hq : gs.regions ≠ [] → ∀ q ∈ gs.queenPositions, q < gs.regions.length) :
    (isSafe gs i).isSome := by
  unfold isSafe isSafePosition
  rw [if_neg hn]
  cases hloop : isSafePositionLoop gs.n (i / gs.n) (i % gs.n) gs.queenPositions with
  | false => simp
  | true =>
    unfold isRegionOccupied
    by_cases hne : gs.regions = []
    · simp [hne]
    · have hlt := hi hne
      have hs := regionLoopIsSome gs.regions (gs.regions[i]) gs.queenPositions (hq hne)
      cases hrl : regionLoop gs.regions (gs.regions[i]) gs.queenPositions with
      | none => rw [hrl] at hs; simp at hs
      | some b => simp [if_neg hne, List.getElem?_eq_getElem hlt, hrl]

theorem getAllValidPositionsAuxEqFilter (gs : GameState) (is : List Nat)
    (h : ∀ i ∈ is, (isSafe gs i).isSome) :
    getAllValidPositionsAux gs is
      = some (is.filter (fun i => decide (isSafe gs i = some true))) := by
  induction is with
  | nil => rfl
  | cons i rest ih =>
    have hi := h i (by simp)
    have hrest := ih (fun x hx => h x (List.mem_cons_of_mem _ hx))
    cases hs : isSafe gs i with
    | none => rw [hs] at hi; simp at hi
    | some b =>
      cases b with
      | true => simp [getAllValidPositionsAux, hs, List.filter_cons, hrest]
      | false => simp [getAllValidPositionsAux, hs, List.filter_cons, hrest]

/-! ## Field lemmas for `afterPlace` -/

theorem afterPlace_n (gs : GameState) (p : Nat) : (afterPlace gs p).n = gs.n := by
  by_cases h : gs.currentPlayer = 1 <;> simp [afterPlace, h]

theorem afterPlace_regions (gs : GameState) (p : Nat) :
    (afterPlace gs p).regions = gs.regions := by
  by_cases h : gs.currentPlayer = 1 <;> simp [afterPlace, h]

theorem afterPlace_queens (gs : GameState) (p : Nat) :
    (afterPlace gs p).queenPositions = gs.queenPositions ++ [p] := by
  by_cases h : gs.currentPlayer = 1 <;> simp [afterPlace, h]

theorem afterPlace_currentPlayer (gs : GameState) (p : Nat) :
    (afterPlace gs p).currentPlayer = gs.currentPlayer := by
  by_cases h : gs.currentPlayer = 1 <;> simp [afterPlace, h]

theorem afterPlace_gameOver (gs : GameState) (p : Nat) :
    (afterPlace gs p).gameOver = gs.gameOver := by
  by_cases h : gs.currentPlayer = 1 <;> simp [afterPlace, h]

theorem afterPlace_validMoves (gs : GameState) (p : Nat) :
    (afterPlace gs p).validMoves = gs.validMoves := by
  by_cases h : gs.currentPlayer = 1 <;> simp [afterPlace, h]

/-- Accepted moves: when the validity scan of the post-placement state
succeeds, `makeMove` returns one of the two post-placement records; in either
case the queen list got the new position appended and board data survive. -/
theorem makeMoveAccepted (gs : GameState) (p pl : Nat) (vm : List Nat)
    (hacc : isSafe gs p = some true)
    (hvm : getAllValidPositions (afterPlace gs p) = some vm) :
    ∃ gs2, makeMove ⟨p, pl, gs⟩ = some gs2 ∧
      gs2.queenPositions = gs.queenPositions ++ [p] ∧
      gs2.n = gs.n ∧ gs2.regions = gs.regions ∧
      gs2.gameOver = (if vm = [] then true else gs.gameOver) := by
  by_cases h0 : vm = []
  · refine ⟨{ afterPlace gs p with gameOver := true, winner := some (if (afterPlace gs p).currentPlayer = 1 then "Player 1" else "Player 2"), message := (if (afterPlace gs p).currentPlayer = 1 then "Player 1" else "Player 2") ++ " wins! Opponent has no valid moves." }, ?_, ?_, ?_, ?_, ?_⟩
    · simp only [makeMove, hacc, hvm, h0, if_pos]
    · simp [afterPlace_queens]
    · simp [afterPlace_n]
    · simp [afterPlace_regions]
    · simp [if_pos h0]
  · refine ⟨{ afterPlace gs p with currentPlayer := if (afterPlace gs p).currentPlayer = 1 then 2 else 1, validMoves := vm, message := "Player " ++ toString (if (afterPlace gs p).currentPlayer = 1 then 2 else 1) ++ "\x27s turn. " ++ toString vm.length ++ " valid moves available." }, ?_, ?_, ?_, ?_, ?_⟩
    · simp only [makeMove, hacc, hvm, h0, if_neg, if_false]
    · simp [afterPlace_queens]
    · simp [afterPlace_n]
    · simp [afterPlace_regions]
    · simp [afterPlace_gameOver, h0]

/-- Region id of a cell, with the (never reached) Java out-of-bounds case
defaulted: the theorems below only apply it to in-range cells. -/
def regionAt (regions : List Nat) (q : Nat) : Nat := regions.getD q 0

theorem regionAt_eq_of_getElem? {regions : List Nat} {q r : Nat}
    (h : regions[q]? = some r) : regionAt regions q = r := by
  simp [regionAt, List.getD_eq_getElem?_getD, h]

/-! ## C1: transition contract of `makeMove` on accepted moves -/

/-- C1. For every `GameState` whose `regions` has length `n * n` and exactly
`n` distinct ids, and every accepted position `p` (a safe cell), `makeMove`
recomputes the opponent's safe cells `vm` (the `filter` characterization
below); if `vm` is empty it terminates the game with the mover as winner,
leaving `validMoves` at its previous value (the code never clears it);
otherwise it flips `currentPlayer` and stores `vm`. Moreover, if the pre-move
queens occupy pairwise distinct regions and the new queen is the `n`-th one,
the opponent has no safe cell. -/
theorem c1_makeMove_transition (gs : GameState) (p pl : Nat)
    (hlen : gs.regions.length = gs.n * gs.n)
    (hcard : gs.regions.toFinset.card = gs.n)
    (hacc : isSafe gs p = some true) :
    ∃ vm : List Nat,
      getAllValidPositions (afterPlace gs p) = some vm ∧
      vm = (List.range (gs.n * gs.n)).filter
             (fun i => decide (isSafe (afterPlace gs p) i = some true)) ∧
      ∃ gs2 : GameState, makeMove ⟨p, pl, gs⟩ = some gs2 ∧
        gs2.queenPositions = gs.queenPositions ++ [p] ∧
        (vm = [] →
          gs2.gameOver = true ∧
          gs2.winner = some (if gs.currentPlayer = 1 then "Player 1" else "Player 2") ∧
          gs2.currentPlayer = gs.currentPlayer ∧
          gs2.validMoves = gs.validMoves) ∧
        (vm ≠ [] →
          gs2.gameOver = gs.gameOver ∧
          gs2.currentPlayer = (if gs.currentPlayer = 1 then 2 else 1) ∧
          gs2.validMoves = vm) ∧
        ((gs.queenPositions.map (regionAt gs.regions)).Nodup →
          gs.queenPositions.length + 1 = gs.n → vm = []) := by
  obtain ⟨hn, -, hreg⟩ := isSafeEqTrueElim gs p hacc
  have hne : gs.regions ≠ [] := by
    intro h0
    apply hn
    have h1 : gs.n * gs.n = 0 := by rw [← hlen, h0]; rfl
    exact (Nat.mul_eq_zero.mp h1).elim id id
  obtain ⟨r, hr, hqs⟩ := hreg hne
  have hplt : p < gs.regions.length := (List.getElem?_eq_some.mp hr).1
  have hqlt : ∀ q ∈ gs.queenPositions, q < gs.regions.length := by
    intro q hq
    obtain ⟨rq, hrq, -⟩ := hqs q hq
    exact (List.getElem?_eq_some.mp hrq).1
  have hsome : ∀ i ∈ List.range (gs.n * gs.n), (isSafe (afterPlace gs p) i).isSome := by
    intro i hi
    rw [List.mem_range] at hi
    apply isSafeIsSome
    · rw [afterPlace_n]; exact hn
    · intro _
      rw [afterPlace_regions, hlen]
      exact hi
    · intro _
      rw [afterPlace_regions, afterPlace_queens]
      intro q hq
      rcases List.mem_append.mp hq with h | h
      · exact hqlt q h
      · rw [List.mem_singleton] at h; subst h; exact hplt
  have hvm : getAllValidPositions (afterPlace gs p)
      = some ((List.range (gs.n * gs.n)).filter
          (fun i => decide (isSafe (afterPlace gs p) i = some true))) := by
    unfold getAllValidPositions
    rw [afterPlace_n]
    exact getAllValidPositionsAuxEqFilter _ _ hsome
  refine ⟨_, hvm, rfl, ?_⟩
  have hpigeon : (gs.queenPositions.map (regionAt gs.regions)).Nodup →
      gs.queenPositions.length + 1 = gs.n →
      (List.range (gs.n * gs.n)).filter
        (fun i => decide (isSafe (afterPlace gs p) i = some true)) = [] := by
    intro hnd hlen1
    rw [List.filter_eq_nil_iff]
    intro i hi
    simp only [decide_eq_true_eq]
    intro hsafe
    obtain ⟨-, -, hregi⟩ := isSafeEqTrueElim (afterPlace gs p) i hsafe
    have hnei : (afterPlace gs p).regions ≠ [] := by rw [afterPlace_regions]; exact hne
    obtain ⟨ri, hri, hall⟩ := hregi hnei
    rw [afterPlace_regions] at hri
    have hmem : ri ∈ gs.regions.toFinset := List.mem_toFinset.mpr (List.getElem?_mem hri)
    have hnodup2 : ((gs.queenPositions ++ [p]).map (regionAt gs.regions)).Nodup := by
      rw [List.map_append]
      rw [List.nodup_append]
      refine ⟨hnd, List.nodup_singleton _, ?_⟩
      intro a ha hb
      simp only [List.map_cons, List.map_nil, List.mem_singleton] at hb
      obtain ⟨q, hq, hfq⟩ := List.mem_map.mp ha
      obtain ⟨rq, hrq, hrqne⟩ := hqs q hq
      apply hrqne
      rw [← regionAt_eq_of_getElem? hrq, hfq, hb]
      exact regionAt_eq_of_getElem? hr
    have hsub : ((gs.queenPositions ++ [p]).map (regionAt gs.regions)).toFinset
        ⊆ gs.regions.toFinset := by
      intro x hx
      rw [List.mem_toFinset] at hx
      obtain ⟨q, hq, hfq⟩ := List.mem_map.mp hx
      have hqlt2 : q < gs.regions.length := by
        rcases List.mem_append.mp hq with h | h
        · exact hqlt q h
        · rw [List.mem_singleton] at h; subst h; exact hplt
      rw [List.mem_toFinset, ← hfq]
      have hfv : regionAt gs.regions q = gs.regions[q] :=
        regionAt_eq_of_getElem? (List.getElem?_eq_getElem hqlt2)
      rw [hfv]
      exact List.getElem_mem hqlt2
    have hcards : gs.regions.toFinset.card
        ≤ (((gs.queenPositions ++ [p]).map (regionAt gs.regions)).toFinset).card := by
      rw [List.toFinset_card_of_nodup hnodup2, List.length_map, List.length_append,
        List.length_singleton, hcard]
      omega
    have hST := Finset.eq_of_subset_of_card_le hsub hcards
    rw [← hST, List.mem_toFinset] at hmem
    obtain ⟨q, hq, hfq⟩ := List.mem_map.mp hmem
    have hq2 : q ∈ (afterPlace gs p).queenPositions := by
      rw [afterPlace_queens]; exact hq
    obtain ⟨rq, hrq, hrqne⟩ := hall q hq2
    rw [afterPlace_regions] at hrq
    apply hrqne
    rw [← regionAt_eq_of_getElem? hrq, hfq]
  by_cases h0 : (List.range (gs.n * gs.n)).filter
      (fun i => decide (isSafe (afterPlace gs p) i = some true)) = []
  · refine ⟨{ afterPlace gs p with gameOver := true, winner := some (if (afterPlace gs p).currentPlayer = 1 then "Player 1" else "Player 2"), message := (if (afterPlace gs p).currentPlayer = 1 then "Player 1" else "Player 2") ++ " wins! Opponent has no valid moves." }, ?_, ?_, ?_, ?_, ?_⟩
    · simp only [makeMove, hacc, hvm, h0, if_pos]
    · simp [afterPlace_queens]
    · intro _
      refine ⟨rfl, ?_, ?_, ?_⟩
      · simp [afterPlace_currentPlayer]
      · simp [afterPlace_currentPlayer]
      · simp [afterPlace_validMoves]
    · intro hne2; exact absurd h0 hne2
    · intro hnd hlen1; exact hpigeon hnd hlen1
  · refine ⟨{ afterPlace gs p with currentPlayer := if (afterPlace gs p).currentPlayer = 1 then 2 else 1, validMoves := (List.range (gs.n * gs.n)).filter (fun i => decide (isSafe (afterPlace gs p) i = some true)), message := "Player " ++ toString (if (afterPlace gs p).currentPlayer = 1 then 2 else 1) ++ "\x27s turn. " ++ toString ((List.range (gs.n * gs.n)).filter (fun i => decide (isSafe (afterPlace gs p) i = some true))).length ++ " valid moves available." }, ?_, ?_, ?_, ?_, ?_⟩
    · simp only [makeMove, hacc, hvm, h0, if_neg, if_false]
    · simp [afterPlace_queens]
    · intro h00; exact absurd h00 h0
    · intro _
      refine ⟨?_, ?_, ?_⟩
      · simp [afterPlace_gameOver]
      · simp [afterPlace_currentPlayer]
      · simp
    · intro hnd hlen1; exact hpigeon hnd hlen1

/-- A 1×1 game about to make its only (and winning) move. -/
def c1Board1 : GameState :=
  { n := 1, regions := [0], queenPositions := [], currentPlayer := 1,
    gameOver := false, winner := none, message := "", validMoves := [0],
    player1Queens := 0, player2Queens := 0, solverType := "dp" }

/-- A 4×4 state (regions of sizes 13/1/1/1; queens 0 and 1 share row 0, and
queen 0 is repeated, so two queens share region 0) where the accepted move 7
makes four queens yet the opponent still has the safe cell 14. -/
def c1Board4 : GameState :=
  { n := 4, regions := [0, 1, 0, 0, 0, 0, 0, 2, 0, 0, 0, 0, 0, 0, 3, 0],
    queenPositions := [0, 1, 0], currentPlayer := 1,
    gameOver := false, winner := none, message := "", validMoves := [],
    player1Queens := 0, player2Queens := 0, solverType := "dp" }

/-- C1 counterexample. Both states satisfy the claim's region hypotheses and
the moves are accepted, yet: on `c1Board1` the game-ending move leaves
`validMoves = [0]` instead of clearing it, and on `c1Board4` the fourth queen
(`queenPositions` reaches length `n = 4`) does not end the game. -/
theorem c1_makeMove_transition_counterexample :
    (c1Board1.regions.length = c1Board1.n * c1Board1.n ∧
     c1Board1.regions.toFinset.card = c1Board1.n ∧
     isSafe c1Board1 0 = some true ∧
     (makeMove ⟨0, 1, c1Board1⟩).map GameState.gameOver = some true ∧
     (makeMove ⟨0, 1, c1Board1⟩).map GameState.validMoves = some [0]) ∧
    (c1Board4.regions.length = c1Board4.n * c1Board4.n ∧
     c1Board4.regions.toFinset.card = c1Board4.n ∧
     isSafe c1Board4 7 = some true ∧
     (makeMove ⟨7, 1, c1Board4⟩).map (fun s => s.queenPositions.length) = some 4 ∧
     (makeMove ⟨7, 1, c1Board4⟩).map GameState.gameOver = some false) := by
  decide

/-- C1 witness: the amended transition contract applied to the concrete 1×1
game. -/
theorem c1_makeMove_transition_witness :
    (c1Board1.regions.length = c1Board1.n * c1Board1.n ∧
     c1Board1.regions.toFinset.card = c1Board1.n ∧
     isSafe c1Board1 0 = some true) ∧
    (∃ vm : List Nat,
      getAllValidPositions (afterPlace c1Board1 0) = some vm ∧
      vm = (List.range (c1Board1.n * c1Board1.n)).filter
             (fun i => decide (isSafe (afterPlace c1Board1 0) i = some true)) ∧
      ∃ gs2 : GameState, makeMove ⟨0, 1, c1Board1⟩ = some gs2 ∧
        gs2.queenPositions = c1Board1.queenPositions ++ [0] ∧
        (vm = [] →
          gs2.gameOver = true ∧
          gs2.winner = some (if c1Board1.currentPlayer = 1 then "Player 1" else "Player 2") ∧
          gs2.currentPlayer = c1Board1.currentPlayer ∧
          gs2.validMoves = c1Board1.validMoves) ∧
        (vm ≠ [] →
          gs2.gameOver = c1Board1.gameOver ∧
          gs2.currentPlayer = (if c1Board1.currentPlayer = 1 then 2 else 1) ∧
          gs2.validMoves = vm) ∧
        ((c1Board1.queenPositions.map (regionAt c1Board1.regions)).Nodup →
          c1Board1.queenPositions.length + 1 = c1Board1.n → vm = [])) :=
  ⟨⟨by decide, by decide, by decide⟩,
    c1_makeMove_transition c1Board1 0 1 (by decide) (by decide) (by decide)⟩

/-! ## More inversion lemmas for the scan -/

theorem getAllValidPositionsAuxNone (gs : GameState) (is : List Nat) (i : Nat)
    (hmem : i ∈ is) (hnone : isSafe gs i = none) :
    getAllValidPositionsAux gs is = none := by
  induction is with
  | nil => cases hmem
  | cons j rest ih =>
    rcases List.mem_cons.mp hmem with h | h
    · subst h
      simp [getAllValidPositionsAux, hnone]
    · cases hs : isSafe gs j with
      | none => simp [getAllValidPositionsAux, hs]
      | some b =>
        cases b with
        | true => simp [getAllValidPositionsAux, hs, ih h]
        | false => simp [getAllValidPositionsAux, hs, ih h]

theorem getAllValidPositionsAuxMem (gs : GameState) (is : List Nat) (vm : List Nat)
    (h : getAllValidPositionsAux gs is = some vm) :
    ∀ i ∈ is, ∃ b, isSafe gs i = some b ∧ (b = true → i ∈ vm) := by
  induction is generalizing vm with
  | nil => intro i hi; cases hi
  | cons j rest ih =>
    intro i hi
    cases hs : isSafe gs j with
    | none => rw [getAllValidPositionsAux, hs] at h; cases h
    | some b =>
      cases b with
      | true =>
        rw [getAllValidPositionsAux, hs] at h
        cases hrest : getAllValidPositionsAux gs rest with
        | none => rw [hrest] at h; cases h
        | some vm' =>
          rw [hrest, Option.map_some'] at h
          injection h with h
          subst h
          rcases List.mem_cons.mp hi with hij | hirest
          · subst hij
            exact ⟨true, hs, fun _ => List.mem_cons_self _ _⟩
          · obtain ⟨b2, hb2, hmem2⟩ := ih vm' hrest i hirest
            exact ⟨b2, hb2, fun hb => List.mem_cons_of_mem _ (hmem2 hb)⟩
      | false =>
        rw [getAllValidPositionsAux, hs] at h
        rcases List.mem_cons.mp hi with hij | hirest
        · subst hij; exact ⟨false, hs, fun hb => by cases hb⟩
        · exact ih vm h i hirest

/-! ## C3: rejected moves -/

/-- C3 (amended). For an in-range position that is not among the current
valid moves, `makeMove` returns the state unchanged except for the diagnostic
message, and raises no exception. (The original claim extended this to
out-of-range positions; see the counterexample.) -/
theorem c3_makeMove_reject (gs : GameState) (p pl : Nat) (vm : List Nat)
    (hvm : getAllValidPositions gs = some vm)
    (hnot : p ∉ vm)
    (hin : p < gs.n * gs.n) :
    makeMove ⟨p, pl, gs⟩
      = some { gs with message := "Invalid move! Queen would be under attack." } := by
  have hp := getAllValidPositionsAuxMem gs _ vm hvm p (List.mem_range.mpr hin)
  obtain ⟨b, hb, hmem⟩ := hp
  cases b with
  | true => exact absurd (hmem rfl) hnot
  | false => simp only [makeMove, hb]

/-- A 1×1 board with no queen: position `1` is out of range, is not a valid
move, and yet `makeMove` throws (`none`) instead of returning the state with
a message. -/
def c3Board : GameState :=
  { n := 1, regions := [0], queenPositions := [], currentPlayer := 1,
    gameOver := false, winner := none, message := "", validMoves := [0],
    player1Queens := 0, player2Queens := 0, solverType := "dp" }

/-- C3 counterexample: the out-of-range rejected position `1` makes
`isRegionOccupied` throw `IndexOutOfBoundsException` (modelled `none`) rather
than returning the unchanged state. -/
theorem c3_makeMove_reject_counterexample :
    getAllValidPositions c3Board = some [0] ∧
    (1 : Nat) ∉ ([0] : List Nat) ∧
    makeMove ⟨1, 1, c3Board⟩ = none := by
  decide

/-- C3 witness: a 2×2 board where the queen at 0 makes every other cell
unsafe; the rejected in-range move 1 only changes the message. -/
def c3Board2 : GameState :=
  { n := 2, regions := [0, 1, 1, 1], queenPositions := [0], currentPlayer := 2,
    gameOver := false, winner := none, message := "", validMoves := [],
    player1Queens := 1, player2Queens := 0, solverType := "dp" }

theorem c3_makeMove_reject_witness :
    getAllValidPositions c3Board2 = some [] ∧ (1 : Nat) ∉ ([] : List Nat) ∧
      1 < c3Board2.n * c3Board2.n ∧
      makeMove ⟨1, 1, c3Board2⟩
        = some { c3Board2 with message := "Invalid move! Queen would be under attack." } :=
  ⟨by decide, by decide, by decide,
    c3_makeMove_reject c3Board2 1 1 [] (by decide) (by decide) (by decide)⟩

/-! ## C4: there is no validation in `initGame` -/

/-- C4 (amended). `initializeGame` (the whole body of the controller's
`initGame`) performs no validation: when `regions` is non-empty but shorter
than `n*n` the valid-move scan throws an out-of-bounds exception (`none`),
and whenever `regions` has at least `n*n` entries — regardless of how many
distinct ids it has — it returns an initialized, playable state. -/
theorem c4_initGame_no_validation (n : Nat) (regions : List Nat) :
    (0 < n → regions ≠ [] → regions.length < n * n → initializeGame n regions = none) ∧
    (n * n ≤ regions.length →
      ∃ st, initializeGame n regions = some st ∧ st.gameOver = false ∧
        st.queenPositions = [] ∧ st.currentPlayer = 1) := by
  constructor
  · intro hn hne hshort
    have hnone : isSafe (initState n regions) regions.length = none := by
      unfold isSafe isSafePosition isRegionOccupied initState
      rw [if_neg (Nat.pos_iff_ne_zero.mp hn)]
      simp only [isSafePositionLoop]
      rw [if_neg hne]
      rw [List.getElem?_eq_none (le_refl _)]
    have hnone2 : getAllValidPositions (initState n regions) = none :=
      getAllValidPositionsAuxNone _ _ regions.length (List.mem_range.mpr hshort) hnone
    unfold initializeGame
    simp only [hnone2]
  · intro hlong
    by_cases hn : n = 0
    · subst hn
      exact ⟨_, rfl, rfl, rfl, rfl⟩
    · have hsome : ∀ i ∈ List.range (n * n), (isSafe (initState n regions) i).isSome := by
        intro i hi
        apply isSafeIsSome _ _ hn
        · intro _
          exact lt_of_lt_of_le (List.mem_range.mp hi) hlong
        · intro _ q hq
          cases hq
      have hsome2 : getAllValidPositions (initState n regions)
          = some ((List.range (n * n)).filter
              (fun i => decide (isSafe (initState n regions) i = some true))) :=
        getAllValidPositionsAuxEqFilter _ _ hsome
      unfold initializeGame
      simp only [hsome2]
      exact ⟨_, rfl, rfl, rfl, rfl⟩

/-- C4 counterexample: `n = 2` with `regions = [0,0,0,0]` (only one distinct
id, not two) — `initGame` returns a fully playable initialized state instead
of a validation failure. -/
theorem c4_initGame_no_validation_counterexample :
    ([0, 0, 0, 0] : List Nat).length = 2 * 2 ∧
    ([0, 0, 0, 0] : List Nat).toFinset.card ≠ 2 ∧
    (initializeGame 2 [0, 0, 0, 0]).map GameState.gameOver = some false ∧
    (initializeGame 2 [0, 0, 0, 0]).map GameState.validMoves = some [0, 1, 2, 3] := by
  decide

theorem c4_initGame_no_validation_witness :
    (0 < 2 ∧ ([0] : List Nat) ≠ [] ∧ ([0] : List Nat).length < 2 * 2 ∧
      initializeGame 2 [0] = none) ∧
    (2 * 2 ≤ ([0, 0, 0, 0] : List Nat).length ∧
      ∃ st, initializeGame 2 [0, 0, 0, 0] = some st ∧ st.gameOver = false ∧
        st.queenPositions = [] ∧ st.currentPlayer = 1) :=
  ⟨⟨by decide, by decide, by decide,
      (c4_initGame_no_validation 2 [0]).1 (by decide) (by decide) (by decide)⟩,
    ⟨by decide, (c4_initGame_no_validation 2 [0, 0, 0, 0]).2 (by decide)⟩⟩

/-! ## C9: `makeMove` ignores the `player` field of `Move` -/

/-- C9. The outcome of `makeMove` is independent of the `Move.player` field:
the acting player is always read from `gameState.currentPlayer`. -/
theorem c9_makeMove_ignores_player (gs : GameState) (p pl pl2 : Nat) :
    makeMove ⟨p, pl, gs⟩ = makeMove ⟨p, pl2, gs⟩ := rfl

/-! ## C10: empty regions silently drop the region constraint -/

/-- C10. When `regions` is `null`/empty, `isRegionOccupied` always reports
`false`, so `isSafe` degenerates to the pure attack check, `validMoves`
contains exactly the attack-free cells, and `makeMove` accepts any
attack-free cell without any validation error. -/
theorem c10_empty_regions_drops_constraint (gs : GameState) (hreg : gs.regions = []) :
    (∀ p, isSafe gs p = isSafePosition p gs.queenPositions gs.n) ∧
    getAllValidPositions gs
      = some ((List.range (gs.n * gs.n)).filter
          (fun i => decide (isSafePosition i gs.queenPositions gs.n = some true))) ∧
    (∀ p pl, isSafePosition p gs.queenPositions gs.n = some true →
      ∃ gs2, makeMove ⟨p, pl, gs⟩ = some gs2 ∧
        gs2.queenPositions = gs.queenPositions ++ [p]) := by
  have hsafe : ∀ p, isSafe gs p = isSafePosition p gs.queenPositions gs.n := by
    intro p
    unfold isSafe isRegionOccupied
    rw [if_pos hreg]
    cases hs : isSafePosition p gs.queenPositions gs.n with
    | none => rfl
    | some b => cases b <;> rfl
  refine ⟨hsafe, ?_, ?_⟩
  · by_cases hn : gs.n = 0
    · unfold getAllValidPositions
      rw [hn]
      rfl
    · have hsome : ∀ i ∈ List.range (gs.n * gs.n), (isSafe gs i).isSome := by
        intro i _
        rw [hsafe i]
        unfold isSafePosition
        rw [if_neg hn]
        rfl
      unfold getAllValidPositions
      rw [getAllValidPositionsAuxEqFilter _ _ hsome]
      congr 1
      apply List.filter_congr
      intro i _
      rw [hsafe i]
  · intro p pl hp
    have hacc : isSafe gs p = some true := by rw [hsafe p]; exact hp
    have hn : gs.n ≠ 0 := by
      intro h0
      unfold isSafePosition at hp
      rw [if_pos h0] at hp
      cases hp
    have hsafe2 : ∀ q, isSafe (afterPlace gs p) q
        = isSafePosition q (afterPlace gs p).queenPositions (afterPlace gs p).n := by
      intro q
      unfold isSafe isRegionOccupied
      rw [if_pos (by rw [afterPlace_regions]; exact hreg)]
      cases hs : isSafePosition q (afterPlace gs p).queenPositions (afterPlace gs p).n with
      | none => rfl
      | some b => cases b <;> rfl
    have hsome : ∀ i ∈ List.range ((afterPlace gs p).n * (afterPlace gs p).n),
        (isSafe (afterPlace gs p) i).isSome := by
      intro i _
      rw [hsafe2 i]
      unfold isSafePosition
      rw [if_neg (by rw [afterPlace_n]; exact hn)]
      rfl
    have hvm : getAllValidPositions (afterPlace gs p)
        = some ((List.range ((afterPlace gs p).n * (afterPlace gs p).n)).filter
            (fun i => decide (isSafe (afterPlace gs p) i = some true))) :=
      getAllValidPositionsAuxEqFilter (afterPlace gs p) _ hsome
    obtain ⟨gs2, hmk, hq2, -, -, -⟩ := makeMoveAccepted gs p pl _ hacc hvm
    exact ⟨gs2, hmk, hq2⟩

/-- C10 witness: a 2×2 board with empty regions and a queen at 0. -/
def c10Board : GameState :=
  { n := 2, regions := [], queenPositions := [0], currentPlayer := 1,
    gameOver := false, winner := none, message := "", validMoves := [],
    player1Queens := 1, player2Queens := 0, solverType := "dp" }

theorem c10_empty_regions_drops_constraint_witness :
    c10Board.regions = [] ∧
    ((∀ p, isSafe c10Board p = isSafePosition p c10Board.queenPositions c10Board.n) ∧
      getAllValidPositions c10Board
        = some ((List.range (c10Board.n * c10Board.n)).filter
            (fun i => decide (isSafePosition i c10Board.queenPositions c10Board.n = some true))) ∧
      (∀ p pl, isSafePosition p c10Board.queenPositions c10Board.n = some true →
        ∃ gs2, makeMove ⟨p, pl, c10Board⟩ = some gs2 ∧
          gs2.queenPositions = c10Board.queenPositions ++ [p])) :=
  ⟨rfl, c10_empty_regions_drops_constraint c10Board rfl⟩

/-! ## C2: data-model invariant on reachable states -/

/-- States reachable from `initializeGame n regions` through `makeMove` calls
that returned normally (with arbitrary positions and `player` fields). -/
inductive Reachable (n : Nat) (regions : List Nat) : GameState → Prop
  | init (gs : GameState) : initializeGame n regions = some gs → Reachable n regions gs
  | step (gs gs2 : GameState) (p pl : Nat) : Reachable n regions gs →
      makeMove ⟨p, pl, gs⟩ = some gs2 → Reachable n regions gs2

theorem initializeGameInv (n : Nat) (regions : List Nat) (gs : GameState)
    (h : initializeGame n regions = some gs) :
    gs.queenPositions = [] ∧ gs.n = n ∧ gs.regions = regions := by
  unfold initializeGame at h
  cases hg : getAllValidPositions (initState n regions) with
  | none => simp only [hg] at h; exact Option.noConfusion h
  | some vm =>
    simp only [hg] at h
    cases h
    exact ⟨rfl, rfl, rfl⟩

/-- Either the move was rejected (state preserved up to the message), or it
was accepted and the position was appended. -/
theorem makeMoveInv (gs gs2 : GameState) (p pl : Nat)
    (h : makeMove ⟨p, pl, gs⟩ = some gs2) :
    (isSafe gs p = some false ∧ gs2.queenPositions = gs.queenPositions ∧
      gs2.n = gs.n ∧ gs2.regions = gs.regions) ∨
    (isSafe gs p = some true ∧ gs2.queenPositions = gs.queenPositions ++ [p] ∧
      gs2.n = gs.n ∧ gs2.regions = gs.regions) := by
  unfold makeMove at h
  cases hs : isSafe gs p with
  | none => simp only [hs] at h; exact Option.noConfusion h
  | some b =>
    cases b with
    | false =>
      simp only [hs] at h
      cases h
      exact Or.inl ⟨rfl, rfl, rfl, rfl⟩
    | true =>
      simp only [hs] at h
      cases hg : getAllValidPositions (afterPlace gs p) with
      | none => simp only [hg] at h; exact Option.noConfusion h
      | some vm =>
        simp only [hg] at h
        by_cases h0 : vm = []
        · rw [if_pos h0] at h
          cases h
          exact Or.inr ⟨rfl, by simp [afterPlace_queens], by simp [afterPlace_n],
            by simp [afterPlace_regions]⟩
        · rw [if_neg h0] at h
          cases h
          exact Or.inr ⟨rfl, by simp [afterPlace_queens], by simp [afterPlace_n],
            by simp [afterPlace_regions]⟩

/-- C2. Every state reachable from `initializeGame(n, regions)` (with
`regions` of length `n*n` and exactly `n` distinct ids) has at most `n`
queens, pairwise non-attacking, in pairwise distinct regions. -/
theorem c2_reachable_invariant (n : Nat) (regions : List Nat) (gs : GameState)
    (hlen : regions.length = n * n)
    (hcard : regions.toFinset.card = n)
    (hr : Reachable n regions gs) :
    gs.queenPositions.length ≤ n ∧
    gs.queenPositions.Pairwise (fun a b => attacksSpec n a b = false) ∧
    (gs.queenPositions.map (regionAt regions)).Nodup := by
  have main : gs.n = n ∧ gs.regions = regions ∧
      (∀ q ∈ gs.queenPositions, q < regions.length) ∧
      gs.queenPositions.Pairwise (fun a b => attacksSpec n a b = false) ∧
      (gs.queenPositions.map (regionAt regions)).Nodup := by
    induction hr with
    | init gs0 h0 =>
      obtain ⟨hq, hn2, hreg2⟩ := initializeGameInv n regions gs0 h0
      refine ⟨hn2, hreg2, ?_, ?_, ?_⟩
      · rw [hq]; intro q hq2; cases hq2
      · rw [hq]; exact List.Pairwise.nil
      · rw [hq]; simp
    | step gs0 gs2 p pl hr0 hmk ih =>
      obtain ⟨ihn, ihreg, ihrange, ihpw, ihnd⟩ := ih
      rcases makeMoveInv gs0 gs2 p pl hmk with ⟨hs, hq, hn2, hreg2⟩ | ⟨hs, hq, hn2, hreg2⟩
      · refine ⟨hn2.trans ihn, hreg2.trans ihreg, ?_, ?_, ?_⟩
        · rw [hq]; exact ihrange
        · rw [hq]; exact ihpw
        · rw [hq]; exact ihnd
      · obtain ⟨hnz, hloop, hregSafe⟩ := isSafeEqTrueElim gs0 p hs
        have hne : gs0.regions ≠ [] := by
          rw [ihreg]
          intro h0
          apply hnz
          rw [ihn]
          have hzz : n * n = 0 := by rw [← hlen, h0]; rfl
          exact (Nat.mul_eq_zero.mp hzz).elim id id
        obtain ⟨r, hrp, hall⟩ := hregSafe hne
        rw [ihreg] at hrp
        have hplt : p < regions.length := (List.getElem?_eq_some.mp hrp).1
        refine ⟨hn2.trans ihn, hreg2.trans ihreg, ?_, ?_, ?_⟩
        · rw [hq]
          intro q hq2
          rcases List.mem_append.mp hq2 with hh | hh
          · exact ihrange q hh
          · rw [List.mem_singleton] at hh; rw [hh]; exact hplt
        · rw [hq, List.pairwise_append]
          refine ⟨ihpw, List.pairwise_singleton _ _, ?_⟩
          intro a ha b hb
          rw [List.mem_singleton] at hb
          rw [hb]
          have hcl := (isSafePositionLoopEqTrueIff gs0.n (p / gs0.n) (p % gs0.n)
            gs0.queenPositions).mp hloop a ha
          rw [ihn] at hcl
          rw [attacksSpec_symm, attacksSpecEqFalseIff]
          exact hcl
        · rw [hq, List.map_append, List.nodup_append]
          refine ⟨ihnd, List.nodup_singleton _, ?_⟩
          intro x hx hx2
          simp only [List.map_cons, List.map_nil, List.mem_singleton] at hx2
          obtain ⟨q, hq3, hfq⟩ := List.mem_map.mp hx
          obtain ⟨rq, hrq, hrqne⟩ := hall q hq3
          rw [ihreg] at hrq
          apply hrqne
          rw [← regionAt_eq_of_getElem? hrq, hfq, hx2]
          exact regionAt_eq_of_getElem? hrp
  obtain ⟨hn2, hreg2, hrange, hpw, hnd⟩ := main
  refine ⟨?_, hpw, hnd⟩
  have h1 : (gs.queenPositions.map (regionAt regions)).toFinset ⊆ regions.toFinset := by
    intro x hx
    rw [List.mem_toFinset] at hx
    obtain ⟨q, hq3, hfq⟩ := List.mem_map.mp hx
    have hlt := hrange q hq3
    rw [List.mem_toFinset, ← hfq, regionAt_eq_of_getElem? (List.getElem?_eq_getElem hlt)]
    exact List.getElem_mem hlt
  have h2 := Finset.card_le_card h1
  rw [List.toFinset_card_of_nodup hnd, List.length_map, hcard] at h2
  exact h2

/-- The exact value of `initializeGame 1 [0]`. -/
def c2Board : GameState :=
  { n := 1, regions := [0], queenPositions := [], currentPlayer := 1,
    gameOver := false, winner := none,
    message := "Game initialized. Player 1\x27s turn.", validMoves := [0],
    player1Queens := 0, player2Queens := 0, solverType := "dp" }

theorem c2_reachable_invariant_witness :
    ([0] : List Nat).length = 1 * 1 ∧ ([0] : List Nat).toFinset.card = 1 ∧
    (c2Board.queenPositions.length ≤ 1 ∧
     c2Board.queenPositions.Pairwise (fun a b => attacksSpec 1 a b = false) ∧
     (c2Board.queenPositions.map (regionAt [0])).Nodup) :=
  ⟨by decide, by decide,
    c2_reachable_invariant 1 [0] c2Board (by decide) (by decide)
      (Reachable.init c2Board (by decide))⟩

/-! ## Bitmask helpers (Java `long` masks)

Java computes `1L << k`; the shift count is taken mod 64 by the JVM, so the
bit set is `k % 64`. Masks therefore live below `2^64` and no further
truncation occurs. -/

/-- `1L << k` with the JVM shift-count wrap. -/
def bit64 (k : Nat) : Nat := 2 ^ (k % 64)

theorem testBit_or_bit64 (m k j : Nat) :
    (m ||| bit64 k).testBit j = (m.testBit j || decide (j = k % 64)) := by
  rw [bit64, Nat.testBit_or, Nat.testBit_two_pow]
  congr 1
  exact decide_eq_decide.mpr eq_comm

theorem and_bit64_ne_zero (m k : Nat) : (m &&& bit64 k ≠ 0) ↔ m.testBit (k % 64) := by
  rw [bit64, Nat.and_two_pow]
  constructor
  · intro h
    by_contra hb
    rw [Bool.not_eq_true] at hb
    rw [hb] at h
    simp at h
  · intro h
    rw [h]
    simp

/-! ## `jar.service.DynamicProgrammingSolverService` (src/unnamed/part_006) -/

/-- Insertion of one element into an ascending list (used to model
`Collections.sort` on the distinct region ids; any correct sort produces the
same ascending list on distinct inputs). -/
def insertSorted (x : Nat) : List Nat → List Nat
  | [] => [x]
  | y :: ys => if x ≤ y then x :: y :: ys else y :: insertSorted x ys

/-- Ascending sort, modelling `Collections.sort(sortedUniqueRegions)`. -/
def sortAsc (l : List Nat) : List Nat := l.foldr insertSorted []

/-- The sorted list of distinct region ids
(`new ArrayList<>(new HashSet<>(regions))` + `Collections.sort`). -/
def sortedUniqueRegions (regions : List Nat) : List Nat := sortAsc regions.dedup

/-- `boardRegionBits[row][col]`: the bit index assigned to the region of cell
`row*n + col` (`regionIdToBitIndex` maps the i-th smallest id to bit `i`). -/
def boardRegionBits (n : Nat) (regions : List Nat) (row col : Nat) : Nat :=
  (sortedUniqueRegions regions).indexOf (regions.getD (row * n + col) 0)

/-- Memo key `"row|col|diag|anti|region"` of `solveRecursive`, modelled as the
tuple of its components (the string encoding is injective on them). -/
def DpKey : Type := Nat × Nat × Nat × Nat × Nat
deriving DecidableEq

/-- The memo `Map<String, Boolean>`, as an association list where `put`
prepends (newest binding wins, like an overwriting map). -/
def DpMemo : Type := List (DpKey × Bool)

def memoLookup (k : DpKey) : DpMemo → Option Bool
  | [] => none
  | (k2, b) :: rest => if k2 = k then some b else memoLookup k rest

def memoInsert (k : DpKey) (b : Bool) (m : DpMemo) : DpMemo := (k, b) :: m

/-- The column loop of `solveRecursive` (without the memo table): try each
column of the current row under the four masks; on success return, on failure
undo (`solution.remove(size-1)`, modelled by `dropLast`) and continue. -/
def dpTryColsNoMemo (n : Nat) (bits : Nat → Nat → Nat)
    (recurse : Nat → Nat → Nat → Nat → List Nat → Bool × List Nat)
    (row cm dm am gm : Nat) : List Nat → List Nat → Bool × List Nat
  | [], sol => (false, sol)
  | col :: cols, sol =>
    if cm &&& bit64 col ≠ 0 then dpTryColsNoMemo n bits recurse row cm dm am gm cols sol
    else if dm &&& bit64 (row + n - col) ≠ 0 then
      dpTryColsNoMemo n bits recurse row cm dm am gm cols sol
    else if am &&& bit64 (row + col) ≠ 0 then
      dpTryColsNoMemo n bits recurse row cm dm am gm cols sol
    else if gm &&& bit64 (bits row col) ≠ 0 then
      dpTryColsNoMemo n bits recurse row cm dm am gm cols sol
    else
      match recurse (cm ||| bit64 col) (dm ||| bit64 (row + n - col))
          (am ||| bit64 (row + col)) (gm ||| bit64 (bits row col))
          (sol ++ [row * n + col]) with
      | (true, sol2) => (true, sol2)
      | (false, sol2) => dpTryColsNoMemo n bits recurse row cm dm am gm cols sol2.dropLast

/-- `solveRecursive` with the memo lookups/stores removed (the reference
semantics for C7). `fuel` bounds the recursion depth; `n + 1 - row` levels
suffice. The Java diagonal index `row - col + n` is `row + n - col` (always
positive since `col < n`). -/
def solveRecursiveNoMemo : Nat → Nat → Nat → (Nat → Nat → Nat) → Nat → Nat → Nat → Nat →
    List Nat → Bool × List Nat
  | 0, _, _, _, _, _, _, _, sol => (false, sol)
  | fuel + 1, row, n, bits, cm, dm, am, gm, sol =>
    if row = n then (true, sol)
    else dpTryColsNoMemo n bits (solveRecursiveNoMemo fuel (row + 1) n bits) row cm dm am gm
      (List.range n) sol

/-- The column loop of `solveRecursive`, threading the memo through the
recursive calls. -/
def dpTryCols (n : Nat) (bits : Nat → Nat → Nat)
    (recurse : Nat → Nat → Nat → Nat → List Nat → DpMemo → Bool × List Nat × DpMemo)
    (row cm dm am gm : Nat) : List Nat → List Nat → DpMemo → Bool × List Nat × DpMemo
  | [], sol, memo => (false, sol, memo)
  | col :: cols, sol, memo =>
    if cm &&& bit64 col ≠ 0 then dpTryCols n bits recurse row cm dm am gm cols sol memo
    else if dm &&& bit64 (row + n - col) ≠ 0 then
      dpTryCols n bits recurse row cm dm am gm cols sol memo
    else if am &&& bit64 (row + col) ≠ 0 then
      dpTryCols n bits recurse row cm dm am gm cols sol memo
    else if gm &&& bit64 (bits row col) ≠ 0 then
      dpTryCols n bits recurse row cm dm am gm cols sol memo
    else
      match recurse (cm ||| bit64 col) (dm ||| bit64 (row + n - col))
          (am ||| bit64 (row + col)) (gm ||| bit64 (bits row col))
          (sol ++ [row * n + col]) memo with
      | (true, sol2, memo2) => (true, sol2, memo2)
      | (false, sol2, memo2) =>
        dpTryCols n bits recurse row cm dm am gm cols sol2.dropLast memo2

/-- `DynamicProgrammingSolverService.solveRecursive`: row-by-row backtracking
over column/diagonal/anti-diagonal/region bitmasks; on exhausting a row's
columns the state key is recorded as a dead end (only `false` is ever
stored). -/
def solveRecursive : Nat → Nat → Nat → (Nat → Nat → Nat) → Nat → Nat → Nat → Nat →
    List Nat → DpMemo → Bool × List Nat × DpMemo
  | 0, _, _, _, _, _, _, _, sol, memo => (false, sol, memo)
  | fuel + 1, row, n, bits, cm, dm, am, gm, sol, memo =>
    if row = n then (true, sol, memo)
    else
      match memoLookup (row, cm, dm, am, gm) memo with
      | some b => (b, sol, memo)
      | none =>
        match dpTryCols n bits (solveRecursive fuel (row + 1) n bits) row cm dm am gm
            (List.range n) sol memo with
        | (true, sol2, memo2) => (true, sol2, memo2)
        | (false, sol2, memo2) =>
          (false, sol2, memoInsert (row, cm, dm, am, gm) false memo2)

/-- `DynamicProgrammingSolverService.solveDP`. -/
def solveDP (n : Nat) (regions : List Nat) : QueensSolution :=
  if regions.length ≠ n * n then
    { queenPositions := [], solved := false,
      message := "Invalid regions array. Expected size: " ++ toString (n * n) }
  else if regions.dedup.length ≠ n then
    { queenPositions := [], solved := false,
      message := "Invalid number of regions. Expected " ++ toString n ++ ", found "
        ++ toString regions.dedup.length }
  else
    match solveRecursive (n + 1) 0 n (boardRegionBits n regions) 0 0 0 0 [] [] with
    | (true, sol, _) =>
      { queenPositions := sol, solved := true,
        message := "Solved using Dynamic Programming (Memoization with Bitmasks)." }
    | (false, _, _) =>
      { queenPositions := [], solved := false,
        message := "No solution found using Dynamic Programming." }

/-! ## The no-memo recursion is insensitive to the accumulated prefix -/

/-- Shape of a recursion level that appends a suffix determined only by the
search state, and restores the prefix on failure. -/
def SolInd (recurse : Nat → Nat → Nat → Nat → List Nat → Bool × List Nat) : Prop :=
  ∀ cm dm am gm sol, ∃ b delta, recurse cm dm am gm sol = (b, sol ++ delta) ∧
    (∀ sol2, recurse cm dm am gm sol2 = (b, sol2 ++ delta)) ∧
    (b = false → delta = [])

theorem dpTryColsNoMemoSolInd (n : Nat) (bits : Nat → Nat → Nat)
    (recurse : Nat → Nat → Nat → Nat → List Nat → Bool × List Nat)
    (hrec : SolInd recurse) (row cm dm am gm : Nat) :
    ∀ cols sol, ∃ b delta,
      dpTryColsNoMemo n bits recurse row cm dm am gm cols sol = (b, sol ++ delta) ∧
      (∀ sol2, dpTryColsNoMemo n bits recurse row cm dm am gm cols sol2 = (b, sol2 ++ delta)) ∧
      (b = false → delta = []) := by
  intro cols
  induction cols with
  | nil =>
    intro sol
    exact ⟨false, [], by simp [dpTryColsNoMemo], fun sol2 => by simp [dpTryColsNoMemo],
      fun _ => rfl⟩
  | cons col cols ih =>
    intro sol
    by_cases h1 : cm &&& bit64 col ≠ 0
    · obtain ⟨b, delta, he, hall, hf⟩ := ih sol
      refine ⟨b, delta, ?_, ?_, hf⟩
      · simp only [dpTryColsNoMemo, if_pos h1]; exact he
      · intro sol2; simp only [dpTryColsNoMemo, if_pos h1]; exact hall sol2
    · by_cases h2 : dm &&& bit64 (row + n - col) ≠ 0
      · obtain ⟨b, delta, he, hall, hf⟩ := ih sol
        refine ⟨b, delta, ?_, ?_, hf⟩
        · simp only [dpTryColsNoMemo, if_neg h1, if_pos h2]; exact he
        · intro sol2; simp only [dpTryColsNoMemo, if_neg h1, if_pos h2]; exact hall sol2
      · by_cases h3 : am &&& bit64 (row + col) ≠ 0
        · obtain ⟨b, delta, he, hall, hf⟩ := ih sol
          refine ⟨b, delta, ?_, ?_, hf⟩
          · simp only [dpTryColsNoMemo, if_neg h1, if_neg h2, if_pos h3]; exact he
          · intro sol2
            simp only [dpTryColsNoMemo, if_neg h1, if_neg h2, if_pos h3]; exact hall sol2
        · by_cases h4 : gm &&& bit64 (bits row col) ≠ 0
          · obtain ⟨b, delta, he, hall, hf⟩ := ih sol
            refine ⟨b, delta, ?_, ?_, hf⟩
            · simp only [dpTryColsNoMemo, if_neg h1, if_neg h2, if_neg h3, if_pos h4]; exact he
            · intro sol2
              simp only [dpTryColsNoMemo, if_neg h1, if_neg h2, if_neg h3, if_pos h4]
              exact hall sol2
          · obtain ⟨br, dr, -, hrall, hrf⟩ := hrec (cm ||| bit64 col)
              (dm ||| bit64 (row + n - col)) (am ||| bit64 (row + col))
              (gm ||| bit64 (bits row col)) (sol ++ [row * n + col])
            cases br with
            | true =>
              refine ⟨true, [row * n + col] ++ dr, ?_, ?_, fun h => by cases h⟩
              · simp only [dpTryColsNoMemo, if_neg h1, if_neg h2, if_neg h3, if_neg h4]
                rw [hrall (sol ++ [row * n + col])]
                rw [List.append_assoc]
              · intro sol2
                simp only [dpTryColsNoMemo, if_neg h1, if_neg h2, if_neg h3, if_neg h4]
                rw [hrall (sol2 ++ [row * n + col])]
                rw [List.append_assoc]
            | false =>
              have hdr : dr = [] := hrf rfl
              subst hdr
              obtain ⟨b2, d2, he2, hall2, hf2⟩ := ih sol
              refine ⟨b2, d2, ?_, ?_, hf2⟩
              · simp only [dpTryColsNoMemo, if_neg h1, if_neg h2, if_neg h3, if_neg h4]
                rw [hrall (sol ++ [row * n + col])]
                simp only [List.append_nil, List.dropLast_concat]
                exact he2
              · intro sol2
                simp only [dpTryColsNoMemo, if_neg h1, if_neg h2, if_neg h3, if_neg h4]
                rw [hrall (sol2 ++ [row * n + col])]
                simp only [List.append_nil, List.dropLast_concat]
                exact hall2 sol2

theorem solveRecursiveNoMemoSolInd (fuel : Nat) :
    ∀ row n bits, SolInd (solveRecursiveNoMemo fuel row n bits) := by
  induction fuel with
  | zero =>
    intro row n bits cm dm am gm sol
    exact ⟨false, [], by simp [solveRecursiveNoMemo], fun sol2 => by simp [solveRecursiveNoMemo],
      fun _ => rfl⟩
  | succ fuel ih =>
    intro row n bits cm dm am gm sol
    by_cases hrow : row = n
    · refine ⟨true, [], ?_, ?_, fun h => by cases h⟩
      · simp [solveRecursiveNoMemo, hrow]
      · intro sol2; simp [solveRecursiveNoMemo, hrow]
    · obtain ⟨b, delta, he, hall, hf⟩ :=
        dpTryColsNoMemoSolInd n bits _ (ih (row + 1) n bits) row cm dm am gm (List.range n) sol
      refine ⟨b, delta, ?_, ?_, hf⟩
      · simp only [solveRecursiveNoMemo, if_neg hrow]; exact he
      · intro sol2; simp only [solveRecursiveNoMemo, if_neg hrow]; exact hall sol2

/-! ## C7: the dead-end memo table is result-preserving -/

/-- Every binding of the memo is a recorded dead end: the stored value is
`false`, and the memo-free recursion — run with the fuel this run has at that
row (`base - row`, where `base` is constant along a run because each level
consumes one fuel per row) — fails from that state whatever the prefix. -/
def MemoOk (n : Nat) (bits : Nat → Nat → Nat) (base : Nat) (memo : DpMemo) : Prop :=
  ∀ row cm dm am gm b, memoLookup (row, cm, dm, am, gm) memo = some b →
    b = false ∧
    ∀ sol, (solveRecursiveNoMemo (base - row) row n bits cm dm am gm sol).1 = false

theorem dpTryColsMemoEquiv (n : Nat) (bits : Nat → Nat → Nat) (fuel row base : Nat)
    (hrec : ∀ cm dm am gm sol memo, MemoOk n bits base memo →
      (solveRecursive fuel (row + 1) n bits cm dm am gm sol memo).1
        = (solveRecursiveNoMemo fuel (row + 1) n bits cm dm am gm sol).1 ∧
      (solveRecursive fuel (row + 1) n bits cm dm am gm sol memo).2.1
        = (solveRecursiveNoMemo fuel (row + 1) n bits cm dm am gm sol).2 ∧
      MemoOk n bits base (solveRecursive fuel (row + 1) n bits cm dm am gm sol memo).2.2)
    (cm dm am gm : Nat) :
    ∀ cols sol memo, MemoOk n bits base memo →
      (dpTryCols n bits (solveRecursive fuel (row + 1) n bits)
          row cm dm am gm cols sol memo).1
        = (dpTryColsNoMemo n bits (solveRecursiveNoMemo fuel (row + 1) n bits)
            row cm dm am gm cols sol).1 ∧
      (dpTryCols n bits (solveRecursive fuel (row + 1) n bits)
          row cm dm am gm cols sol memo).2.1
        = (dpTryColsNoMemo n bits (solveRecursiveNoMemo fuel (row + 1) n bits)
            row cm dm am gm cols sol).2 ∧
      MemoOk n bits base (dpTryCols n bits (solveRecursive fuel (row + 1) n bits)
          row cm dm am gm cols sol memo).2.2 := by
  intro cols
  induction cols with
  | nil => intro sol memo hm; exact ⟨rfl, rfl, hm⟩
  | cons col cols ih =>
    intro sol memo hm
    by_cases h1 : cm &&& bit64 col ≠ 0
    · simpa only [dpTryCols, dpTryColsNoMemo, if_pos h1] using ih sol memo hm
    · by_cases h2 : dm &&& bit64 (row + n - col) ≠ 0
      · simpa only [dpTryCols, dpTryColsNoMemo, if_neg h1, if_pos h2] using ih sol memo hm
      · by_cases h3 : am &&& bit64 (row + col) ≠ 0
        · simpa only [dpTryCols, dpTryColsNoMemo, if_neg h1, if_neg h2, if_pos h3]
            using ih sol memo hm
        · by_cases h4 : gm &&& bit64 (bits row col) ≠ 0
          · simpa only [dpTryCols, dpTryColsNoMemo, if_neg h1, if_neg h2, if_neg h3, if_pos h4]
              using ih sol memo hm
          · obtain ⟨hbimp, hsimp, hmimp⟩ := hrec (cm ||| bit64 col)
              (dm ||| bit64 (row + n - col)) (am ||| bit64 (row + col))
              (gm ||| bit64 (bits row col)) (sol ++ [row * n + col]) memo hm
            simp only [dpTryCols, dpTryColsNoMemo, if_neg h1, if_neg h2, if_neg h3, if_neg h4]
            rcases hres : solveRecursive fuel (row + 1) n bits (cm ||| bit64 col)
                (dm ||| bit64 (row + n - col)) (am ||| bit64 (row + col))
                (gm ||| bit64 (bits row col)) (sol ++ [row * n + col]) memo
              with ⟨cb, csol, cmemo⟩
            rcases hres0 : solveRecursiveNoMemo fuel (row + 1) n bits (cm ||| bit64 col)
                (dm ||| bit64 (row + n - col)) (am ||| bit64 (row + col))
                (gm ||| bit64 (bits row col)) (sol ++ [row * n + col])
              with ⟨cb0, csol0⟩
            rw [hres, hres0] at hbimp hsimp
            rw [hres] at hmimp
            cases cb with
            | true =>
              have hcb0 : cb0 = true := by simpa using hbimp.symm
              subst hcb0
              have hcsol : csol0 = csol := by simpa using hsimp.symm
              subst hcsol
              exact ⟨rfl, rfl, hmimp⟩
            | false =>
              have hcb0 : cb0 = false := by simpa using hbimp.symm
              subst hcb0
              have hcsol : csol0 = csol := by simpa using hsimp.symm
              subst hcsol
              exact ih _ cmemo hmimp

theorem solveRecursiveMemoEquivAux (fuel : Nat) :
    ∀ row n bits cm dm am gm sol memo, MemoOk n bits (fuel + row) memo →
      (solveRecursive fuel row n bits cm dm am gm sol memo).1
        = (solveRecursiveNoMemo fuel row n bits cm dm am gm sol).1 ∧
      (solveRecursive fuel row n bits cm dm am gm sol memo).2.1
        = (solveRecursiveNoMemo fuel row n bits cm dm am gm sol).2 ∧
      MemoOk n bits (fuel + row) (solveRecursive fuel row n bits cm dm am gm sol memo).2.2 := by
  induction fuel with
  | zero =>
    intro row n bits cm dm am gm sol memo hm
    exact ⟨rfl, rfl, hm⟩
  | succ fuel ih =>
    intro row n bits cm dm am gm sol memo hm
    by_cases hrow : row = n
    · have hm1 : solveRecursive (fuel + 1) row n bits cm dm am gm sol memo
          = (true, sol, memo) := by simp only [solveRecursive, if_pos hrow]
      have hm2 : solveRecursiveNoMemo (fuel + 1) row n bits cm dm am gm sol
          = (true, sol) := by simp only [solveRecursiveNoMemo, if_pos hrow]
      rw [hm1, hm2]
      exact ⟨rfl, rfl, hm⟩
    · have hbase : fuel + 1 + row = fuel + (row + 1) := by omega
      cases hlk : memoLookup (row, cm, dm, am, gm) memo with
      | some b =>
        obtain ⟨hb, hfail⟩ := hm row cm dm am gm b hlk
        subst hb
        have hfuel : fuel + 1 + row - row = fuel + 1 := by omega
        rw [hfuel] at hfail
        obtain ⟨b0, delta, he, -, hf⟩ := solveRecursiveNoMemoSolInd (fuel + 1) row n bits
          cm dm am gm sol
        have hb0 : b0 = false := by
          have hh := hfail sol
          rw [he] at hh
          exact hh
        subst hb0
        have hdelta : delta = [] := hf rfl
        subst hdelta
        have hmemoRun : solveRecursive (fuel + 1) row n bits cm dm am gm sol memo
            = (false, sol, memo) := by
          simp only [solveRecursive, if_neg hrow, hlk]
        rw [hmemoRun, he]
        refine ⟨rfl, by simp, hm⟩
      | none =>
        have hrec := fun cm2 dm2 am2 gm2 sol2 memo2 hm2 =>
          ih (row + 1) n bits cm2 dm2 am2 gm2 sol2 memo2 (by rw [← hbase]; exact hm2)
        have hrec2 : ∀ cm2 dm2 am2 gm2 sol2 memo2, MemoOk n bits (fuel + 1 + row) memo2 →
            (solveRecursive fuel (row + 1) n bits cm2 dm2 am2 gm2 sol2 memo2).1
              = (solveRecursiveNoMemo fuel (row + 1) n bits cm2 dm2 am2 gm2 sol2).1 ∧
            (solveRecursive fuel (row + 1) n bits cm2 dm2 am2 gm2 sol2 memo2).2.1
              = (solveRecursiveNoMemo fuel (row + 1) n bits cm2 dm2 am2 gm2 sol2).2 ∧
            MemoOk n bits (fuel + 1 + row)
              (solveRecursive fuel (row + 1) n bits cm2 dm2 am2 gm2 sol2 memo2).2.2 := by
          intro cm2 dm2 am2 gm2 sol2 memo2 hm2
          obtain ⟨ha, hb, hc⟩ := hrec cm2 dm2 am2 gm2 sol2 memo2 hm2
          exact ⟨ha, hb, by rw [hbase]; exact hc⟩
        obtain ⟨hteq, hseq, htm⟩ := dpTryColsMemoEquiv n bits fuel row (fuel + 1 + row) hrec2
          cm dm am gm (List.range n) sol memo hm
        rcases htres : dpTryCols n bits (solveRecursive fuel (row + 1) n bits)
            row cm dm am gm (List.range n) sol memo with ⟨tb, tsol, tmemo⟩
        rcases htres0 : dpTryColsNoMemo n bits (solveRecursiveNoMemo fuel (row + 1) n bits)
            row cm dm am gm (List.range n) sol with ⟨tb0, tsol0⟩
        rw [htres, htres0] at hteq hseq
        rw [htres] at htm
        simp only [solveRecursive, solveRecursiveNoMemo, if_neg hrow, hlk, htres, htres0]
        cases tb with
        | true =>
          have htb0 : tb0 = true := by simpa using hteq.symm
          subst htb0
          have hts : tsol0 = tsol := by simpa using hseq.symm
          subst hts
          exact ⟨rfl, rfl, htm⟩
        | false =>
          have htb0 : tb0 = false := by simpa using hteq.symm
          subst htb0
          have hts : tsol0 = tsol := by simpa using hseq.symm
          subst hts
          refine ⟨rfl, rfl, ?_⟩
          intro row2 cm2 dm2 am2 gm2 b2 hlk2
          by_cases hkey : ((row, cm, dm, am, gm) : DpKey) = (row2, cm2, dm2, am2, gm2)
          · simp only [memoInsert, memoLookup, if_pos hkey] at hlk2
            have hb2 : b2 = false := (Option.some_injective _ hlk2).symm
            subst hb2
            refine ⟨rfl, ?_⟩
            obtain ⟨hr2, hc2, hd2, ha2, hg2⟩ : row = row2 ∧ cm = cm2 ∧ dm = dm2 ∧
                am = am2 ∧ gm = gm2 := by
              have h1 := congrArg Prod.fst hkey
              have h2 := congrArg (fun k : DpKey => k.2.1) hkey
              have h3 := congrArg (fun k : DpKey => k.2.2.1) hkey
              have h4 := congrArg (fun k : DpKey => k.2.2.2.1) hkey
              have h5 := congrArg (fun k : DpKey => k.2.2.2.2) hkey
              exact ⟨h1, h2, h3, h4, h5⟩
            subst hr2; subst hc2; subst hd2; subst ha2; subst hg2
            have hfuel : fuel + 1 + row - row = fuel + 1 := by omega
            rw [hfuel]
            intro sol3
            obtain ⟨b0, delta, he, hall, -⟩ := solveRecursiveNoMemoSolInd (fuel + 1) row n bits
              cm dm am gm sol
            have hb0 : b0 = false := by
              have hx : (solveRecursiveNoMemo (fuel + 1) row n bits cm dm am gm sol).1
                  = false := by
                rw [show (solveRecursiveNoMemo (fuel + 1) row n bits cm dm am gm sol)
                    = dpTryColsNoMemo n bits (solveRecursiveNoMemo fuel (row + 1) n bits)
                        row cm dm am gm (List.range n) sol from by
                  simp only [solveRecursiveNoMemo, if_neg hrow]]
                rw [htres0]
              rw [he] at hx
              exact hx
            subst hb0
            rw [hall sol3]
          · simp only [memoInsert, memoLookup, if_neg hkey] at hlk2
            exact htm row2 cm2 dm2 am2 gm2 b2 hlk2

/-- C7. Memoization of the exhaustive bitmask solver is result-preserving:
from an empty memo, `solveRecursive` returns the same success flag and the
same accumulated solution as the identical recursion without the memo table
(`solveRecursiveNoMemo`), for every row index, every combination of the four
masks, every board and every fuel; and the final memo stores only `false`
(dead ends), keyed by row plus all four masks. -/
theorem c7_solveRecursive_memo_preserving (fuel row n : Nat) (bits : Nat → Nat → Nat)
    (cm dm am gm : Nat) (sol : List Nat) :
    (solveRecursive fuel row n bits cm dm am gm sol []).1
      = (solveRecursiveNoMemo fuel row n bits cm dm am gm sol).1 ∧
    (solveRecursive fuel row n bits cm dm am gm sol []).2.1
      = (solveRecursiveNoMemo fuel row n bits cm dm am gm sol).2 ∧
    (∀ k b, memoLookup k (solveRecursive fuel row n bits cm dm am gm sol []).2.2 = some b →
      b = false) := by
  have hm : MemoOk n bits (fuel + row) [] := by
    intro row2 cm2 dm2 am2 gm2 b2 hlk
    cases hlk
  obtain ⟨h1, h2, h3⟩ := solveRecursiveMemoEquivAux fuel row n bits cm dm am gm sol [] hm
  refine ⟨h1, h2, ?_⟩
  intro k b hlk
  exact (h3 k.1 k.2.1 k.2.2.1 k.2.2.2.1 k.2.2.2.2 b hlk).1

/-! ## `jar.service.QueensSolverService.solveDivideAndConquer` -/

/-- The `Placement` helper class: sets of used rows, columns and the two
diagonal families (`r - c`, which can be negative, and `r + c`), plus the
queens placed so far. Java `HashSet`s are modelled as lists used only through
membership. -/
structure Placement where
  rows : List Nat
  cols : List Nat
  diag1 : List Int
  diag2 : List Nat
  queenPositions : List Nat
deriving Repr, DecidableEq

def Placement.empty : Placement := ⟨[], [], [], [], []⟩

/-- `Placement.tryPlace`: reject on any shared row/column/diagonal, else
record the new queen's lines (the caller appends to `queenPositions`
separately, as in the Java code). -/
def tryPlace (n : Nat) (pl : Placement) (pos : Nat) : Option Placement :=
  if pos / n ∈ pl.rows ∨ pos % n ∈ pl.cols ∨
      ((pos / n : Nat) : Int) - ((pos % n : Nat) : Int) ∈ pl.diag1 ∨
      pos / n + pos % n ∈ pl.diag2 then none
  else some { pl with rows := pos / n :: pl.rows, cols := pos % n :: pl.cols,
                      diag1 := (((pos / n : Nat) : Int) - ((pos % n : Nat) : Int)) :: pl.diag1,
                      diag2 := (pos / n + pos % n) :: pl.diag2 }

/-- The cells of one region, grouped in increasing index order
(`regionCells.computeIfAbsent(...).add(i)` over the scan of `regions`). -/
def regionCells (regions : List Nat) (r : Nat) : List Nat :=
  (List.range regions.length).filter (fun i => regions.getD i 0 = r)

/-- Stable insertion by a sort key (models `regionList.sort(comparingInt)`;
any stable sort yields this list). -/
def insertByKey (key : Nat → Nat) (x : Nat) : List Nat → List Nat
  | [] => [x]
  | y :: ys => if key x ≤ key y then x :: y :: ys else y :: insertByKey key x ys

def sortByKey (key : Nat → Nat) (l : List Nat) : List Nat := l.foldr (insertByKey key) []

/-- The loop of `combine` that re-places each of `b`'s queens into the
merged placement. -/
def combineQueens (n : Nat) (merged : Placement) : List Nat → Option Placement
  | [] => some merged
  | pos :: rest =>
    match tryPlace n merged pos with
    | none => none
    | some m2 => combineQueens n { m2 with queenPositions := m2.queenPositions ++ [pos] } rest

/-- `QueensSolverService.combine`: copy `a`, then add all of `b`'s queens,
failing on any attack. -/
def combine (n : Nat) (a b : Placement) : Option Placement :=
  combineQueens n a b.queenPositions

/-- `QueensSolverService.dncSolve` on the sublist `regionList[left..right]`.
The interval is represented by the sublist itself; `fuel ≥ list length`
bounds the recursion (each half is strictly shorter). The Java code throws
on an empty interval (`n = 0`), modelled as `none`. -/
def dncSolve : Nat → Nat → List Nat → List Nat → Option Placement
  | 0, _, _, _ => none
  | _ + 1, _, _, [] => none
  | _ + 1, n, regions, [r] =>
    match regionCells regions r with
    | [] => none
    | pos :: _ =>
      match tryPlace n Placement.empty pos with
      | none => none
      | some pl => some { pl with queenPositions := pl.queenPositions ++ [pos] }
  | fuel + 1, n, regions, r1 :: r2 :: rest =>
    let rl := r1 :: r2 :: rest
    let mid := (rl.length - 1) / 2
    match dncSolve fuel n regions (rl.take (mid + 1)) with
    | none => none
    | some leftSol =>
      match dncSolve fuel n regions (rl.drop (mid + 1)) with
      | none => none
      | some rightSol => combine n leftSol rightSol

/-- `QueensSolverService.solveDivideAndConquer`. -/
def solveDivideAndConquer (n : Nat) (regions : List Nat) : QueensSolution :=
  if regions.length ≠ n * n then
    { queenPositions := [], solved := false,
      message := "Invalid regions array. Expected size: " ++ toString (n * n) }
  else
    let regionListS := sortByKey (fun r => (regionCells regions r).length) regions.dedup
    if regionListS.length ≠ n then
      { queenPositions := [], solved := false,
        message := "Expected exactly " ++ toString n ++ " regions, but found "
          ++ toString regionListS.length }
    else
      match dncSolve regionListS.length n regions regionListS with
      | some result =>
        if result.queenPositions.length = n then
          { queenPositions := result.queenPositions, solved := true,
            message := "Solved using Divide & Conquer strategy (split regions, recurse, combine)." }
        else
          { queenPositions := [], solved := false,
            message := "No valid solution found using Divide & Conquer." }
      | none =>
        { queenPositions := [], solved := false,
          message := "No valid solution found using Divide & Conquer." }

/-! ## Soundness of the divide-and-conquer placements -/

/-- The line sets cover every placed queen, and the queens are pairwise
non-attacking. -/
def PlacementSound (n : Nat) (pl : Placement) : Prop :=
  (∀ p ∈ pl.queenPositions, p / n ∈ pl.rows ∧ p % n ∈ pl.cols ∧
    ((p / n : Nat) : Int) - ((p % n : Nat) : Int) ∈ pl.diag1 ∧
    p / n + p % n ∈ pl.diag2) ∧
  pl.queenPositions.Pairwise (fun a b => attacksSpec n a b = false)

theorem placementEmptySound (n : Nat) : PlacementSound n Placement.empty :=
  ⟨fun p hp => absurd hp (List.not_mem_nil p), List.Pairwise.nil⟩

theorem tryPlaceSound (n : Nat) (pl : Placement) (pos : Nat) (pl2 : Placement)
    (hs : PlacementSound n pl) (h : tryPlace n pl pos = some pl2) :
    pl2.queenPositions = pl.queenPositions ∧
    PlacementSound n { pl2 with queenPositions := pl2.queenPositions ++ [pos] } := by
  unfold tryPlace at h
  by_cases hc : pos / n ∈ pl.rows ∨ pos % n ∈ pl.cols ∨
      ((pos / n : Nat) : Int) - ((pos % n : Nat) : Int) ∈ pl.diag1 ∨
      pos / n + pos % n ∈ pl.diag2
  · rw [if_pos hc] at h; cases h
  · rw [if_neg hc] at h
    cases h
    push_neg at hc
    obtain ⟨hr, hcl, hd1, hd2⟩ := hc
    refine ⟨rfl, ?_, ?_⟩
    · intro p hp
      rcases List.mem_append.mp hp with hold | hnew
      · obtain ⟨h1, h2, h3, h4⟩ := hs.1 p hold
        exact ⟨List.mem_cons_of_mem _ h1, List.mem_cons_of_mem _ h2,
          List.mem_cons_of_mem _ h3, List.mem_cons_of_mem _ h4⟩
      · rw [List.mem_singleton] at hnew
        rw [hnew]
        exact ⟨List.mem_cons_self _ _, List.mem_cons_self _ _,
          List.mem_cons_self _ _, List.mem_cons_self _ _⟩
    · rw [List.pairwise_append]
      refine ⟨hs.2, List.pairwise_singleton _ _, ?_⟩
      intro a ha b hb
      rw [List.mem_singleton] at hb
      rw [hb]
      obtain ⟨h1, h2, h3, h4⟩ := hs.1 a ha
      rw [attacksSpecEqFalseIff]
      refine ⟨?_, ?_, ?_⟩
      · intro he; rw [he] at h1; exact hr h1
      · intro he; rw [he] at h2; exact hcl h2
      · intro he
        have had : ((a / n : Nat) : Int) - ((a % n : Nat) : Int)
            ≠ ((pos / n : Nat) : Int) - ((pos % n : Nat) : Int) := by
          intro hx; rw [hx] at h3; exact hd1 h3
        have haa : a / n + a % n ≠ pos / n + pos % n := by
          intro hx; rw [hx] at h4; exact hd2 h4
        omega

theorem combineQueensSound (n : Nat) :
    ∀ qs merged m2, PlacementSound n merged → combineQueens n merged qs = some m2 →
      m2.queenPositions = merged.queenPositions ++ qs ∧ PlacementSound n m2 := by
  intro qs
  induction qs with
  | nil =>
    intro merged m2 hs h
    cases h
    exact ⟨(List.append_nil _).symm, hs⟩
  | cons pos rest ih =>
    intro merged m2 hs h
    simp only [combineQueens] at h
    cases ht : tryPlace n merged pos with
    | none => rw [ht] at h; cases h
    | some mid =>
      rw [ht] at h
      obtain ⟨hq, hsnd⟩ := tryPlaceSound n merged pos mid hs ht
      obtain ⟨hq2, hs2⟩ := ih _ m2 hsnd h
      constructor
      · rw [hq2]
        simp only [hq]
        rw [List.append_assoc]
        rfl
      · exact hs2

theorem regionCellsMem (regions : List Nat) (r pos : Nat)
    (h : pos ∈ regionCells regions r) :
    pos < regions.length ∧ regionAt regions pos = r := by
  unfold regionCells at h
  rw [List.mem_filter] at h
  obtain ⟨h1, h2⟩ := h
  exact ⟨List.mem_range.mp h1, of_decide_eq_true h2⟩

theorem dncSolveSound (n : Nat) (regions : List Nat) :
    ∀ fuel rl pl, dncSolve fuel n regions rl = some pl →
      PlacementSound n pl ∧
      pl.queenPositions.map (regionAt regions) = rl ∧
      (∀ p ∈ pl.queenPositions, p < regions.length) := by
  intro fuel
  induction fuel with
  | zero => intro rl pl h; cases h
  | succ fuel ih =>
    intro rl pl h
    cases rl with
    | nil => cases h
    | cons r1 rest =>
      cases rest with
      | nil =>
        simp only [dncSolve] at h
        cases hc : regionCells regions r1 with
        | nil => simp only [hc] at h; exact Option.noConfusion h
        | cons pos ps =>
          simp only [hc] at h
          cases ht : tryPlace n Placement.empty pos with
          | none => simp only [ht] at h; exact Option.noConfusion h
          | some pl1 =>
            simp only [ht, Option.some.injEq] at h
            subst h
            obtain ⟨hq, hsnd⟩ := tryPlaceSound n Placement.empty pos pl1
              (placementEmptySound n) ht
            have hposmem : pos ∈ regionCells regions r1 := by
              rw [hc]; exact List.mem_cons_self _ _
            obtain ⟨hlt, hreg⟩ := regionCellsMem regions r1 pos hposmem
            refine ⟨hsnd, ?_, ?_⟩
            · simp only [hq, Placement.empty, List.nil_append, List.map_cons, List.map_nil,
                hreg]
            · intro p hp
              simp only [hq, Placement.empty, List.nil_append, List.mem_singleton] at hp
              rw [hp]
              exact hlt
      | cons r2 rest2 =>
        simp only [dncSolve] at h
        cases hL : dncSolve fuel n regions
            ((r1 :: r2 :: rest2).take (((r1 :: r2 :: rest2).length - 1) / 2 + 1)) with
        | none => rw [hL] at h; cases h
        | some leftSol =>
          rw [hL] at h
          cases hR : dncSolve fuel n regions
              ((r1 :: r2 :: rest2).drop (((r1 :: r2 :: rest2).length - 1) / 2 + 1)) with
          | none => rw [hR] at h; cases h
          | some rightSol =>
            rw [hR] at h
            obtain ⟨hsL, hmL, hbL⟩ := ih _ leftSol hL
            obtain ⟨hsR, hmR, hbR⟩ := ih _ rightSol hR
            obtain ⟨hq, hsnd⟩ := combineQueensSound n rightSol.queenPositions leftSol pl hsL h
            refine ⟨hsnd, ?_, ?_⟩
            · rw [hq, List.map_append, hmL, hmR]
              exact List.take_append_drop _ _
            · intro p hp
              rw [hq] at hp
              rcases List.mem_append.mp hp with hh | hh
              · exact hbL p hh
              · exact hbR p hh

/-! ## Soundness of the exhaustive bitmask solver (no-memo form) -/

theorem posDivMod (n row col : Nat) (hc : col < n) :
    (row * n + col) / n = row ∧ (row * n + col) % n = col := by
  have hn : 0 < n := lt_of_le_of_lt (Nat.zero_le _) hc
  constructor
  · rw [mul_comm, Nat.mul_add_div hn, Nat.div_eq_of_lt hc, Nat.add_zero]
  · rw [mul_comm, Nat.mul_add_mod, Nat.mod_eq_of_lt hc]

theorem posRecompose (n p : Nat) : p / n * n + p % n = p := by
  rw [mul_comm]
  exact Nat.div_add_mod p n

/-- `boardRegionBits` at the decoded coordinates of a cell is the bit index
of that cell's region id. -/
theorem boardRegionBitsEq (n : Nat) (regions : List Nat) (p : Nat) :
    boardRegionBits n regions (p / n) (p % n)
      = (sortedUniqueRegions regions).indexOf (regionAt regions p) := by
  unfold boardRegionBits regionAt
  rw [posRecompose]

/-- State invariant of the bitmask search: one queen per visited row, masks
covering every used column / diagonal / anti-diagonal / region bit, and the
queens placed so far mutually non-attacking with distinct region bits. -/
def DpInv (n : Nat) (bits : Nat → Nat → Nat) (row cm dm am gm : Nat)
    (sol : List Nat) : Prop :=
  sol.length = row ∧
  (∀ p ∈ sol, p % n < n ∧ p / n < row) ∧
  (∀ p ∈ sol, cm.testBit (p % n % 64) = true ∧
    dm.testBit ((p / n + n - p % n) % 64) = true ∧
    am.testBit ((p / n + p % n) % 64) = true ∧
    gm.testBit (bits (p / n) (p % n) % 64) = true) ∧
  sol.Pairwise (fun p q => attacksSpec n p q = false ∧
    bits (p / n) (p % n) ≠ bits (q / n) (q % n))

theorem dpInvInit (n : Nat) (bits : Nat → Nat → Nat) : DpInv n bits 0 0 0 0 0 [] := by
  refine ⟨rfl, ?_, ?_, List.Pairwise.nil⟩ <;> intro p hp <;> exact absurd hp (List.not_mem_nil p)

/-- Passing all four mask guards and placing the queen of the current row
preserves the invariant. -/
theorem dpInvStep (n : Nat) (bits : Nat → Nat → Nat) (row cm dm am gm col : Nat)
    (sol : List Nat) (hcol : col < n)
    (hinv : DpInv n bits row cm dm am gm sol)
    (h1 : ¬ cm &&& bit64 col ≠ 0)
    (h2 : ¬ dm &&& bit64 (row + n - col) ≠ 0)
    (h3 : ¬ am &&& bit64 (row + col) ≠ 0)
    (h4 : ¬ gm &&& bit64 (bits row col) ≠ 0) :
    DpInv n bits (row + 1) (cm ||| bit64 col) (dm ||| bit64 (row + n - col))
      (am ||| bit64 (row + col)) (gm ||| bit64 (bits row col))
      (sol ++ [row * n + col]) := by
  obtain ⟨hlen, hbnd, hmask, hpw⟩ := hinv
  obtain ⟨hqd, hqm⟩ := posDivMod n row col hcol
  have g1 : ¬ cm.testBit (col % 64) = true :=
    fun ht => h1 ((and_bit64_ne_zero cm col).mpr ht)
  have g2 : ¬ dm.testBit ((row + n - col) % 64) = true :=
    fun ht => h2 ((and_bit64_ne_zero dm (row + n - col)).mpr ht)
  have g3 : ¬ am.testBit ((row + col) % 64) = true :=
    fun ht => h3 ((and_bit64_ne_zero am (row + col)).mpr ht)
  have g4 : ¬ gm.testBit (bits row col % 64) = true :=
    fun ht => h4 ((and_bit64_ne_zero gm (bits row col)).mpr ht)
  refine ⟨by simp [hlen], ?_, ?_, ?_⟩
  · intro p hp
    rcases List.mem_append.mp hp with hp2 | hp2
    · exact ⟨(hbnd p hp2).1, Nat.lt_succ_of_lt (hbnd p hp2).2⟩
    · rw [List.mem_singleton] at hp2
      rw [hp2, hqd, hqm]
      exact ⟨hcol, Nat.lt_succ_self row⟩
  · intro p hp
    rcases List.mem_append.mp hp with hp2 | hp2
    · obtain ⟨m1, m2, m3, m4⟩ := hmask p hp2
      exact ⟨by simp [testBit_or_bit64, m1], by simp [testBit_or_bit64, m2],
        by simp [testBit_or_bit64, m3], by simp [testBit_or_bit64, m4]⟩
    · rw [List.mem_singleton] at hp2
      subst hp2
      have hb : ∀ m k, (m ||| bit64 k).testBit (k % 64) = true := by
        intro m k
        rw [testBit_or_bit64]
        simp
      exact ⟨by rw [hqm]; exact hb cm col, by rw [hqd, hqm]; exact hb dm (row + n - col),
        by rw [hqd, hqm]; exact hb am (row + col), by rw [hqd, hqm]; exact hb gm (bits row col)⟩
  · rw [List.pairwise_append]
    refine ⟨hpw, by simp, ?_⟩
    intro p hp q hq
    rw [List.mem_singleton] at hq
    subst hq
    obtain ⟨hplt, hprow⟩ := hbnd p hp
    obtain ⟨m1, m2, m3, m4⟩ := hmask p hp
    have hcne : p % n ≠ col := by
      intro he; rw [he] at m1; exact g1 m1
    have hdne : p / n + n - p % n ≠ row + n - col := by
      intro he; rw [he] at m2; exact g2 m2
    have hane : p / n + p % n ≠ row + col := by
      intro he; rw [he] at m3; exact g3 m3
    constructor
    · simp only [attacksSpec, rowOf, colOf, hqd, hqm, decide_eq_false_iff_not]
      omega
    · rw [hqd, hqm]
      intro he; rw [he] at m4; exact g4 m4

/-- Any success of the column loop satisfies the target predicate `C`,
provided the recursion does from any invariant-satisfying state. -/
theorem dpTryColsNoMemoSound (n : Nat) (bits : Nat → Nat → Nat)
    (recurse : Nat → Nat → Nat → Nat → List Nat → Bool × List Nat)
    (C : List Nat → Prop) (row : Nat)
    (hsi : SolInd recurse)
    (hrec : ∀ cm dm am gm sol sol2, DpInv n bits (row + 1) cm dm am gm sol →
      recurse cm dm am gm sol = (true, sol2) → C sol2)
    (cm dm am gm : Nat) :
    ∀ cols, (∀ c ∈ cols, c < n) → ∀ sol sol2, DpInv n bits row cm dm am gm sol →
      dpTryColsNoMemo n bits recurse row cm dm am gm cols sol = (true, sol2) →
      C sol2 := by
  intro cols
  induction cols with
  | nil =>
    intro _ sol sol2 _ h
    simp [dpTryColsNoMemo] at h
  | cons col cols ih =>
    intro hcs sol sol2 hinv h
    have hcol : col < n := hcs col (List.mem_cons_self col cols)
    have hcs2 : ∀ c ∈ cols, c < n := fun c hc => hcs c (List.mem_cons_of_mem col hc)
    by_cases h1 : cm &&& bit64 col ≠ 0
    · simp only [dpTryColsNoMemo, if_pos h1] at h
      exact ih hcs2 sol sol2 hinv h
    · by_cases h2 : dm &&& bit64 (row + n - col) ≠ 0
      · simp only [dpTryColsNoMemo, if_neg h1, if_pos h2] at h
        exact ih hcs2 sol sol2 hinv h
      · by_cases h3 : am &&& bit64 (row + col) ≠ 0
        · simp only [dpTryColsNoMemo, if_neg h1, if_neg h2, if_pos h3] at h
          exact ih hcs2 sol sol2 hinv h
        · by_cases h4 : gm &&& bit64 (bits row col) ≠ 0
          · simp only [dpTryColsNoMemo, if_neg h1, if_neg h2, if_neg h3, if_pos h4] at h
            exact ih hcs2 sol sol2 hinv h
          · simp only [dpTryColsNoMemo, if_neg h1, if_neg h2, if_neg h3, if_neg h4] at h
            have hstep := dpInvStep n bits row cm dm am gm col sol hcol hinv h1 h2 h3 h4
            obtain ⟨b, delta, he, hall, hf⟩ := hsi (cm ||| bit64 col)
              (dm ||| bit64 (row + n - col)) (am ||| bit64 (row + col))
              (gm ||| bit64 (bits row col)) (sol ++ [row * n + col])
            rw [he] at h
            cases b with
            | true =>
              have h2b : ((true : Bool), (sol ++ [row * n + col]) ++ delta)
                  = ((true : Bool), sol2) := h
              injection h2b with h2c h2d
              rw [h2d] at he
              exact hrec _ _ _ _ _ _ hstep he
            | false =>
              have hdelta : delta = [] := hf rfl
              subst hdelta
              have h2b : dpTryColsNoMemo n bits recurse row cm dm am gm cols
                  ((sol ++ [row * n + col]) ++ []).dropLast = (true, sol2) := h
              rw [List.append_nil, List.dropLast_concat] at h2b
              exact ih hcs2 sol sol2 hinv h2b

/-- Legality of anything accepted by the memo-free bitmask recursion: from an
invariant-satisfying state, a successful run returns `n` pairwise
non-attacking queens with pairwise-distinct region bits. -/
theorem dpNoMemoSoundAux (fuel : Nat) :
    ∀ row n bits cm dm am gm sol sol2, DpInv n bits row cm dm am gm sol →
      solveRecursiveNoMemo fuel row n bits cm dm am gm sol = (true, sol2) →
      sol2.length = n ∧
      sol2.Pairwise (fun p q => attacksSpec n p q = false ∧
        bits (p / n) (p % n) ≠ bits (q / n) (q % n)) := by
  induction fuel with
  | zero =>
    intro row n bits cm dm am gm sol sol2 _ h
    simp [solveRecursiveNoMemo] at h
  | succ fuel ih =>
    intro row n bits cm dm am gm sol sol2 hinv h
    by_cases hrow : row = n
    · have h2b : ((true : Bool), sol) = ((true : Bool), sol2) := by
        simpa only [solveRecursiveNoMemo, if_pos hrow] using h
      injection h2b with h2c h2d
      subst h2d
      exact ⟨by rw [hinv.1, hrow], hinv.2.2.2⟩
    · simp only [solveRecursiveNoMemo, if_neg hrow] at h
      exact dpTryColsNoMemoSound n bits (solveRecursiveNoMemo fuel (row + 1) n bits)
        (fun s2 => s2.length = n ∧ s2.Pairwise (fun p q => attacksSpec n p q = false ∧
          bits (p / n) (p % n) ≠ bits (q / n) (q % n))) row
        (solveRecursiveNoMemoSolInd fuel (row + 1) n bits)
        (fun cm2 dm2 am2 gm2 s s2 hinv2 hr => ih (row + 1) n bits cm2 dm2 am2 gm2 s s2 hinv2 hr)
        cm dm am gm (List.range n) (fun c hc => List.mem_range.mp hc) sol sol2 hinv h

/-! ## The key-based sort permutes its input -/

theorem insertByKeyPerm (key : Nat → Nat) (x : Nat) :
    ∀ l, (insertByKey key x l).Perm (x :: l) := by
  intro l
  induction l with
  | nil => exact List.Perm.refl _
  | cons y ys ih =>
    unfold insertByKey
    by_cases h : key x ≤ key y
    · rw [if_pos h]
    · rw [if_neg h]
      exact (ih.cons y).trans (List.Perm.swap x y ys)

theorem sortByKeyPerm (key : Nat → Nat) (l : List Nat) : (sortByKey key l).Perm l := by
  induction l with
  | nil => exact List.Perm.refl _
  | cons x xs ih =>
    exact (insertByKeyPerm key x (sortByKey key xs)).trans (ih.cons x)

/-- C5. Solver round-trip legality: on a board whose regions list has length
`n * n`, whenever `solveDP` or `solveDivideAndConquer` reports `solved =
true`, the returned `queenPositions` hold exactly `n` positions, pairwise
non-attacking, with pairwise-distinct regions. -/
theorem c5_solver_roundtrip (n : Nat) (regions : List Nat)
    (hlen : regions.length = n * n) :
    ((solveDP n regions).solved = true →
      (solveDP n regions).queenPositions.length = n ∧
      (solveDP n regions).queenPositions.Pairwise (fun a b => attacksSpec n a b = false) ∧
      ((solveDP n regions).queenPositions.map (regionAt regions)).Nodup) ∧
    ((solveDivideAndConquer n regions).solved = true →
      (solveDivideAndConquer n regions).queenPositions.length = n ∧
      (solveDivideAndConquer n regions).queenPositions.Pairwise
        (fun a b => attacksSpec n a b = false) ∧
      ((solveDivideAndConquer n regions).queenPositions.map (regionAt regions)).Nodup) := by
  have hv1 : ¬ regions.length ≠ n * n := by rw [hlen]; exact fun h => h rfl
  constructor
  · intro hsolved
    by_cases hv2 : regions.dedup.length ≠ n
    · have hfalse : (solveDP n regions).solved = false := by
        simp only [solveDP, if_neg hv1, if_pos hv2]
      rw [hfalse] at hsolved
      exact Bool.noConfusion hsolved
    · rcases hrun : solveRecursive (n + 1) 0 n (boardRegionBits n regions) 0 0 0 0 [] []
        with ⟨b, sol, memo⟩
      have hmok : MemoOk n (boardRegionBits n regions) (n + 1 + 0) [] := by
        intro row cm dm am gm bb hlk
        exact Option.noConfusion hlk
      obtain ⟨he1, he2, -⟩ := solveRecursiveMemoEquivAux (n + 1) 0 n
        (boardRegionBits n regions) 0 0 0 0 [] [] hmok
      rw [hrun] at he1 he2
      cases b with
      | false =>
        have hfalse : (solveDP n regions).solved = false := by
          simp only [solveDP, if_neg hv1, if_neg hv2, hrun]
        rw [hfalse] at hsolved
        exact Bool.noConfusion hsolved
      | true =>
        have hq : (solveDP n regions).queenPositions = sol := by
          simp only [solveDP, if_neg hv1, if_neg hv2, hrun]
        rcases hnm : solveRecursiveNoMemo (n + 1) 0 n (boardRegionBits n regions) 0 0 0 0 []
          with ⟨b0, sol0⟩
        rw [hnm] at he1 he2
        have hb0 : b0 = true := by simpa using he1.symm
        subst hb0
        have hs0 : sol0 = sol := by simpa using he2.symm
        subst hs0
        obtain ⟨hlen2, hpw⟩ := dpNoMemoSoundAux (n + 1) 0 n (boardRegionBits n regions)
          0 0 0 0 [] sol0 (dpInvInit n (boardRegionBits n regions)) hnm
        refine ⟨by rw [hq]; exact hlen2, ?_, ?_⟩
        · rw [hq]
          exact hpw.imp (fun hab => hab.1)
        · rw [hq]
          have hreg : sol0.Pairwise (fun a b => regionAt regions a ≠ regionAt regions b) := by
            refine hpw.imp ?_
            intro a b hab he
            exact hab.2 (by rw [boardRegionBitsEq, boardRegionBitsEq, he])
          exact List.pairwise_map.mpr hreg
  · intro hsolved
    by_cases hv2 : (sortByKey (fun r => (regionCells regions r).length) regions.dedup).length ≠ n
    · have hfalse : (solveDivideAndConquer n regions).solved = false := by
        simp only [solveDivideAndConquer, if_neg hv1, if_pos hv2]
      rw [hfalse] at hsolved
      exact Bool.noConfusion hsolved
    · rcases hdnc : dncSolve
          (sortByKey (fun r => (regionCells regions r).length) regions.dedup).length n regions
          (sortByKey (fun r => (regionCells regions r).length) regions.dedup)
        with _ | result
      · have hfalse : (solveDivideAndConquer n regions).solved = false := by
          simp only [solveDivideAndConquer, if_neg hv1, if_neg hv2, hdnc]
        rw [hfalse] at hsolved
        exact Bool.noConfusion hsolved
      · by_cases hrlen : result.queenPositions.length = n
        · have hq : (solveDivideAndConquer n regions).queenPositions
              = result.queenPositions := by
            simp only [solveDivideAndConquer, if_neg hv1, if_neg hv2, hdnc, if_pos hrlen]
          obtain ⟨hsnd, hmap, -⟩ := dncSolveSound n regions
            (sortByKey (fun r => (regionCells regions r).length) regions.dedup).length
            (sortByKey (fun r => (regionCells regions r).length) regions.dedup) result hdnc
          refine ⟨by rw [hq, hrlen], by rw [hq]; exact hsnd.2, ?_⟩
          rw [hq, hmap]
          exact (sortByKeyPerm (fun r => (regionCells regions r).length)
            regions.dedup).symm.nodup (List.nodup_dedup regions)
        · have hfalse : (solveDivideAndConquer n regions).solved = false := by
            simp only [solveDivideAndConquer, if_neg hv1, if_neg hv2, hdnc, if_neg hrlen]
          rw [hfalse] at hsolved
          exact Bool.noConfusion hsolved

/-- Witness instantiating the solver round-trip on the 1×1 board. -/
theorem c5_solver_roundtrip_witness :
    ([0] : List Nat).length = 1 * 1 ∧
    (((solveDP 1 [0]).solved = true →
      (solveDP 1 [0]).queenPositions.length = 1 ∧
      (solveDP 1 [0]).queenPositions.Pairwise (fun a b => attacksSpec 1 a b = false) ∧
      ((solveDP 1 [0]).queenPositions.map (regionAt [0])).Nodup) ∧
    ((solveDivideAndConquer 1 [0]).solved = true →
      (solveDivideAndConquer 1 [0]).queenPositions.length = 1 ∧
      (solveDivideAndConquer 1 [0]).queenPositions.Pairwise
        (fun a b => attacksSpec 1 a b = false) ∧
      ((solveDivideAndConquer 1 [0]).queenPositions.map (regionAt [0])).Nodup)) :=
  ⟨by decide, c5_solver_roundtrip 1 [0] (by decide)⟩

/-! ## `jar.service.DnCBacktrackingSolverService` (backend file)

`getDnCMove` here collects the valid moves by scanning the board, looks for
an instant-win move, and otherwise returns `validMoves.get(0)`; it never
invokes the `dncQueens` solver. List lookups that can throw
(`regions.get(...)`) are modelled with `Option`. -/

/-- The per-queen loop of `isPositionSafeForMove`: region equality is checked
first, then row, column and the two diagonal forms. -/
def dncSafeLoop (n : Nat) (regions : List Nat) (row col region : Nat) :
    List Nat → Option Bool
  | [] => some true
  | q :: rest =>
    match regions[q]? with
    | none => none
    | some rq =>
      if rq = region then some false
      else if row = q / n then some false
      else if col = q % n then some false
      else if (row : Int) - (col : Int) = ((q / n : Nat) : Int) - ((q % n : Nat) : Int) then
        some false
      else if row + col = q / n + q % n then some false
      else dncSafeLoop n regions row col region rest

/-- `DnCBacktrackingSolverService.isPositionSafeForMove` (backend file).
`position / n` throws on `n = 0`; `regions.get` throws out of range. -/
def isPositionSafeForMove (position : Nat) (queenPositions : List Nat) (n : Nat)
    (regions : List Nat) : Option Bool :=
  if n = 0 then none
  else
    match regions[position]? with
    | none => none
    | some region => dncSafeLoop n regions (position / n) (position % n) region queenPositions

/-- The double `row`/`col` scan of `getDnCMove` collecting valid moves, over
the flattened position list. -/
def dncValidMovesAux (n : Nat) (regions : List Nat) (queens : List Nat) :
    List Nat → Option (List Nat)
  | [] => some []
  | p :: rest =>
    if p ∈ queens then dncValidMovesAux n regions queens rest
    else
      match isPositionSafeForMove p queens n regions with
      | none => none
      | some true =>
        match dncValidMovesAux n regions queens rest with
        | none => none
        | some l => some (p :: l)
      | some false => dncValidMovesAux n regions queens rest

def dncValidMoves (n : Nat) (regions : List Nat) (queens : List Nat) : Option (List Nat) :=
  dncValidMovesAux n regions queens (List.range (n * n))

/-- `opponentHasMove`: the same scan, stopping at the first safe cell. -/
def opponentHasMoveAux (n : Nat) (regions : List Nat) (queens : List Nat) :
    List Nat → Option Bool
  | [] => some false
  | p :: rest =>
    if p ∈ queens then opponentHasMoveAux n regions queens rest
    else
      match isPositionSafeForMove p queens n regions with
      | none => none
      | some true => some true
      | some false => opponentHasMoveAux n regions queens rest

def opponentHasMove (n : Nat) (regions : List Nat) (queens : List Nat) : Option Bool :=
  opponentHasMoveAux n regions queens (List.range (n * n))

/-- The instant-win scan of `getDnCMove`: the first valid move after which the
opponent has no move, if any. -/
def dncWinScan (n : Nat) (regions : List Nat) (queens : List Nat) :
    List Nat → Option (Option Nat)
  | [] => some none
  | m :: rest =>
    match opponentHasMove n regions (queens ++ [m]) with
    | none => none
    | some true => dncWinScan n regions queens rest
    | some false => some (some m)

/-- `DnCBacktrackingSolverService.getDnCMove` (backend file). -/
def getDnCMove (gs : GameState) : Option Int :=
  if gs.gameOver then some (-1)
  else
    match dncValidMoves gs.n gs.regions gs.queenPositions with
    | none => none
    | some [] => some (-1)
    | some (v :: vs) =>
      match dncWinScan gs.n gs.regions gs.queenPositions (v :: vs) with
      | none => none
      | some (some m) => some (m : Int)
      | some none => some (v : Int)

/-! ## The `src/unnamed/part_008` variant of `DnCBacktrackingSolverService`

Its `getDnCMove` really does run the `dncQueens` solver from the first empty
row and returns `solution.get(currentQueens.size())`, or `-1` when no
completion exists. The Java diagonal index `row - col + n - 1` is
`row + n - 1 - col` (non-negative since `col < n`). -/

/-- The column loop of `dncQueens` (part_008), threading `solution` and
`regionMask`; on a failed recursive call the last queen and its region are
removed again. -/
def p8TryCols (n : Nat) (regions : List Nat)
    (recurse : Nat → Nat → Nat → List Nat → List Nat → Option (Bool × List Nat × List Nat))
    (row cols diag1 diag2 : Nat) :
    List Nat → List Nat → List Nat → Option (Bool × List Nat × List Nat)
  | [], sol, rmask => some (false, sol, rmask)
  | col :: cs, sol, rmask =>
    if cols &&& bit64 col ≠ 0 then
      p8TryCols n regions recurse row cols diag1 diag2 cs sol rmask
    else if diag1 &&& bit64 (row + n - 1 - col) ≠ 0 then
      p8TryCols n regions recurse row cols diag1 diag2 cs sol rmask
    else if diag2 &&& bit64 (row + col) ≠ 0 then
      p8TryCols n regions recurse row cols diag1 diag2 cs sol rmask
    else
      match regions[row * n + col]? with
      | none => none
      | some region =>
        if region ∈ rmask then p8TryCols n regions recurse row cols diag1 diag2 cs sol rmask
        else
          match recurse (cols ||| bit64 col) (diag1 ||| bit64 (row + n - 1 - col))
              (diag2 ||| bit64 (row + col)) (sol ++ [row * n + col]) (rmask ++ [region]) with
          | none => none
          | some (true, sol2, rmask2) => some (true, sol2, rmask2)
          | some (false, sol2, rmask2) =>
            p8TryCols n regions recurse row cols diag1 diag2 cs sol2.dropLast
              (rmask2.erase region)

/-- `dncQueens` (part_008): row-by-row backtracking from the given row.
`fuel ≥ n + 1 - row` suffices since each level advances one row. -/
def p8Queens (n : Nat) (regions : List Nat) :
    Nat → Nat → Nat → Nat → Nat → List Nat → List Nat →
    Option (Bool × List Nat × List Nat)
  | 0, _, _, _, _, sol, rmask => some (false, sol, rmask)
  | fuel + 1, row, cols, diag1, diag2, sol, rmask =>
    if row = n then some (true, sol, rmask)
    else p8TryCols n regions (p8Queens n regions fuel (row + 1)) row cols diag1 diag2
      (List.range n) sol rmask

/-- The mask-building loop over the current queens in `getDnCMove`
(part_008): `pos / n` throws on `n = 0`, `rowsOccupied[r]` throws when
`r ≥ n`, `regions.get(pos)` throws out of range. -/
def p8BuildMasks (n : Nat) (regions : List Nat) :
    List Nat → Nat → Nat → Nat → List Nat → List Nat →
    Option (Nat × Nat × Nat × List Nat × List Nat)
  | [], cols, diag1, diag2, rmask, rocc => some (cols, diag1, diag2, rmask, rocc)
  | pos :: rest, cols, diag1, diag2, rmask, rocc =>
    if n = 0 then none
    else if n ≤ pos / n then none
    else
      match regions[pos]? with
      | none => none
      | some reg =>
        p8BuildMasks n regions rest (cols ||| bit64 (pos % n))
          (diag1 ||| bit64 (pos / n + n - 1 - pos % n)) (diag2 ||| bit64 (pos / n + pos % n))
          (rmask ++ [reg]) (rocc ++ [pos / n])

/-- `getDnCMove` of the part_008 variant: build masks from the placed queens,
find the first empty row, run the solver onward, and return the first newly
placed position of the completion, else `-1`. -/
def getDnCMoveSolver (gs : GameState) : Option Int :=
  if gs.gameOver then some (-1)
  else
    match p8BuildMasks gs.n gs.regions gs.queenPositions 0 0 0 [] [] with
    | none => none
    | some (cols, diag1, diag2, rmask, rocc) =>
      match (List.range gs.n).find? (fun r => decide (r ∉ rocc)) with
      | none => some (-1)
      | some startRow =>
        match p8Queens gs.n gs.regions (gs.n + 1 - startRow) startRow cols diag1 diag2
            gs.queenPositions rmask with
        | none => none
        | some (true, sol, _) =>
          if gs.queenPositions.length < sol.length then
            match sol[gs.queenPositions.length]? with
            | none => none
            | some m => some (m : Int)
          else some (-1)
        | some (false, _, _) => some (-1)

/-! ## Totality of the backend move scan on well-formed boards -/

theorem dncSafeLoopIsSome (n : Nat) (regions : List Nat) (row col region : Nat) :
    ∀ qs, (∀ q ∈ qs, q < regions.length) →
      (dncSafeLoop n regions row col region qs).isSome := by
  intro qs
  induction qs with
  | nil => intro _; simp [dncSafeLoop]
  | cons q rest ih =>
    intro h
    have hq : q < regions.length := h q (by simp)
    simp only [dncSafeLoop, List.getElem?_eq_getElem hq]
    split
    · simp
    · split
      · simp
      · split
        · simp
        · split
          · simp
          · split
            · simp
            · exact ih (fun x hx => h x (List.mem_cons_of_mem _ hx))

theorem isPositionSafeForMoveIsSome (position : Nat) (queens : List Nat) (n : Nat)
    (regions : List Nat) (hn : 0 < n) (hp : position < regions.length)
    (hq : ∀ q ∈ queens, q < regions.length) :
    (isPositionSafeForMove position queens n regions).isSome := by
  unfold isPositionSafeForMove
  rw [if_neg (Nat.pos_iff_ne_zero.mp hn), List.getElem?_eq_getElem hp]
  exact dncSafeLoopIsSome n regions (position / n) (position % n) regions[position] queens hq

theorem dncValidMovesAuxSome (n : Nat) (regions queens : List Nat)
    (hq : ∀ q ∈ queens, q < regions.length) :
    ∀ ps, (∀ p ∈ ps, p < regions.length ∧ 0 < n) →
      ∃ l, dncValidMovesAux n regions queens ps = some l ∧ ∀ x ∈ l, x ∈ ps := by
  intro ps
  induction ps with
  | nil => exact fun _ => ⟨[], rfl, fun x hx => absurd hx (List.not_mem_nil x)⟩
  | cons p rest ih =>
    intro hps
    obtain ⟨hpl, hn⟩ := hps p (List.mem_cons_self p rest)
    have hrest : ∀ x ∈ rest, x < regions.length ∧ 0 < n :=
      fun x hx => hps x (List.mem_cons_of_mem p hx)
    obtain ⟨l, hl, hlsub⟩ := ih hrest
    by_cases hmem : p ∈ queens
    · refine ⟨l, ?_, fun x hx => List.mem_cons_of_mem p (hlsub x hx)⟩
      simp only [dncValidMovesAux, if_pos hmem]
      exact hl
    · have hsafe := isPositionSafeForMoveIsSome p queens n regions hn hpl hq
      cases hs : isPositionSafeForMove p queens n regions with
      | none => rw [hs] at hsafe; simp at hsafe
      | some b =>
        cases b with
        | true =>
          refine ⟨p :: l, ?_, ?_⟩
          · simp only [dncValidMovesAux, if_neg hmem, hs, hl]
          · intro x hx
            rcases List.mem_cons.mp hx with h | h
            · rw [h]; exact List.mem_cons_self p rest
            · exact List.mem_cons_of_mem p (hlsub x h)
        | false =>
          refine ⟨l, ?_, fun x hx => List.mem_cons_of_mem p (hlsub x hx)⟩
          simp only [dncValidMovesAux, if_neg hmem, hs]
          exact hl

theorem opponentHasMoveAuxSome (n : Nat) (regions queens : List Nat)
    (hq : ∀ q ∈ queens, q < regions.length) :
    ∀ ps, (∀ p ∈ ps, p < regions.length ∧ 0 < n) →
      (opponentHasMoveAux n regions queens ps).isSome := by
  intro ps
  induction ps with
  | nil => intro _; simp [opponentHasMoveAux]
  | cons p rest ih =>
    intro hps
    obtain ⟨hpl, hn⟩ := hps p (List.mem_cons_self p rest)
    have hrest : ∀ x ∈ rest, x < regions.length ∧ 0 < n :=
      fun x hx => hps x (List.mem_cons_of_mem p hx)
    by_cases hmem : p ∈ queens
    · simp only [opponentHasMoveAux, if_pos hmem]
      exact ih hrest
    · have hsafe := isPositionSafeForMoveIsSome p queens n regions hn hpl hq
      cases hs : isPositionSafeForMove p queens n regions with
      | none => rw [hs] at hsafe; simp at hsafe
      | some b =>
        cases b with
        | true => simp [opponentHasMoveAux, if_neg hmem, hs]
        | false =>
          simp only [opponentHasMoveAux, if_neg hmem, hs]
          exact ih hrest

theorem dncWinScanSome (n : Nat) (regions queens : List Nat)
    (hq : ∀ q ∈ queens, q < regions.length) (hnn : regions.length = n * n) :
    ∀ vm, (∀ m ∈ vm, m < regions.length) →
      ∃ r, dncWinScan n regions queens vm = some r ∧
        ∀ w, r = some w → w ∈ vm ∧
          opponentHasMove n regions (queens ++ [w]) = some false := by
  intro vm
  induction vm with
  | nil => exact fun _ => ⟨none, rfl, fun w hw => Option.noConfusion hw⟩
  | cons m rest ih =>
    intro hvm
    have hm : m < regions.length := hvm m (List.mem_cons_self m rest)
    have hq2 : ∀ x ∈ queens ++ [m], x < regions.length := by
      intro x hx
      rcases List.mem_append.mp hx with h | h
      · exact hq x h
      · rw [List.mem_singleton] at h; rw [h]; exact hm
    have hop : (opponentHasMove n regions (queens ++ [m])).isSome := by
      refine opponentHasMoveAuxSome n regions (queens ++ [m]) hq2 (List.range (n * n)) ?_
      intro p hp
      have hplt : p < n * n := List.mem_range.mp hp
      refine ⟨by rw [hnn]; exact hplt, ?_⟩
      rcases Nat.eq_zero_or_pos n with h0 | h0
      · rw [h0] at hplt; simp at hplt
      · exact h0
    cases ho : opponentHasMove n regions (queens ++ [m]) with
    | none => rw [ho] at hop; simp at hop
    | some b =>
      cases b with
      | false =>
        refine ⟨some m, ?_, ?_⟩
        · simp only [dncWinScan, ho]
        · intro w hw
          injection hw with hw
          subst hw
          exact ⟨List.mem_cons_self m rest, ho⟩
      | true =>
        obtain ⟨r, hr, hrprop⟩ := ih (fun x hx => hvm x (List.mem_cons_of_mem m hx))
        refine ⟨r, ?_, ?_⟩
        · simp only [dncWinScan, ho]; exact hr
        · intro w hw
          obtain ⟨h1, h2⟩ := hrprop w hw
          exact ⟨List.mem_cons_of_mem m h1, h2⟩

/-- C6 (amended). On an in-progress board with in-range regions and queens,
the backend `getDnCMove` never throws and returns: `-1` when there is no
valid move, an instant-win valid move when one exists, and otherwise the
FIRST valid move of the board scan — it never consults the solver. -/
theorem c6_getDnCMove_first_valid (gs : GameState)
    (hgo : gs.gameOver = false)
    (hlen : gs.regions.length = gs.n * gs.n)
    (hq : ∀ q ∈ gs.queenPositions, q < gs.regions.length) :
    ∃ vm, dncValidMoves gs.n gs.regions gs.queenPositions = some vm ∧
      ((vm = [] ∧ getDnCMove gs = some (-1)) ∨
       (∃ w, w ∈ vm ∧
          opponentHasMove gs.n gs.regions (gs.queenPositions ++ [w]) = some false ∧
          getDnCMove gs = some (w : Int)) ∨
       (dncWinScan gs.n gs.regions gs.queenPositions vm = some none ∧
        ∃ v vs, vm = v :: vs ∧ getDnCMove gs = some (v : Int))) := by
  have hrange : ∀ p ∈ List.range (gs.n * gs.n), p < gs.regions.length ∧ 0 < gs.n := by
    intro p hp
    have hplt : p < gs.n * gs.n := List.mem_range.mp hp
    refine ⟨by rw [hlen]; exact hplt, ?_⟩
    rcases Nat.eq_zero_or_pos gs.n with h0 | h0
    · rw [h0] at hplt; simp at hplt
    · exact h0
  obtain ⟨vm, hvm, hsub⟩ := dncValidMovesAuxSome gs.n gs.regions gs.queenPositions hq
    (List.range (gs.n * gs.n)) hrange
  have hvm2 : dncValidMoves gs.n gs.regions gs.queenPositions = some vm := hvm
  refine ⟨vm, hvm2, ?_⟩
  cases vm with
  | nil =>
    left
    refine ⟨rfl, ?_⟩
    simp [getDnCMove, hgo, hvm2]
  | cons v vs =>
    have hbound : ∀ m ∈ v :: vs, m < gs.regions.length := by
      intro m hm
      rw [hlen]
      exact List.mem_range.mp (hsub m hm)
    obtain ⟨r, hr, hrprop⟩ := dncWinScanSome gs.n gs.regions gs.queenPositions hq hlen
      (v :: vs) hbound
    cases r with
    | some w =>
      right; left
      obtain ⟨hwin1, hwin2⟩ := hrprop w rfl
      refine ⟨w, hwin1, hwin2, ?_⟩
      simp [getDnCMove, hgo, hvm2, hr]
    | none =>
      right; right
      refine ⟨hr, v, vs, rfl, ?_⟩
      simp [getDnCMove, hgo, hvm2, hr]

/-- A 4×4 board (regions `0` and `1` confined to row 0) on which no full
4-queens completion exists at all. -/
def c6Board : GameState :=
  { n := 4, regions := [0, 1, 2, 2, 2, 2, 2, 2, 2, 2, 2, 2, 3, 3, 3, 3],
    queenPositions := [], currentPlayer := 1,
    gameOver := false, winner := none, message := "", validMoves := [],
    player1Queens := 0, player2Queens := 0, solverType := "dnc" }

/-- C6 counterexample. The game is in progress with 16 valid moves and no
instant-win move, and no completion of the position exists (the part_008
solver variant returns `-1`); the spec therefore requires `-1`, but the
backend `getDnCMove` returns the first valid move `0`. -/
theorem c6_getDnCMove_counterexample :
    c6Board.gameOver = false ∧
    dncValidMoves c6Board.n c6Board.regions c6Board.queenPositions
      = some (List.range 16) ∧
    dncWinScan c6Board.n c6Board.regions c6Board.queenPositions (List.range 16)
      = some none ∧
    getDnCMoveSolver c6Board = some (-1) ∧
    getDnCMove c6Board = some 0 := by decide

/-- Witness instantiating the amended move contract on the same board. -/
theorem c6_getDnCMove_first_valid_witness :
    (c6Board.gameOver = false ∧ c6Board.regions.length = c6Board.n * c6Board.n ∧
      (∀ q ∈ c6Board.queenPositions, q < c6Board.regions.length)) ∧
    (∃ vm, dncValidMoves c6Board.n c6Board.regions c6Board.queenPositions = some vm ∧
      ((vm = [] ∧ getDnCMove c6Board = some (-1)) ∨
       (∃ w, w ∈ vm ∧
          opponentHasMove c6Board.n c6Board.regions (c6Board.queenPositions ++ [w])
            = some false ∧
          getDnCMove c6Board = some (w : Int)) ∨
       (dncWinScan c6Board.n c6Board.regions c6Board.queenPositions vm = some none ∧
        ∃ v vs, vm = v :: vs ∧ getDnCMove c6Board = some (v : Int)))) :=
  ⟨⟨rfl, by decide, by decide⟩,
    c6_getDnCMove_first_valid c6Board rfl (by decide) (by decide)⟩

/-! ## `jar.service.MinimaxDpSolverService` (src/unnamed/part_008)

Alpha-beta minimax with a result memo. `Integer.MIN_VALUE`/`MAX_VALUE` are
the 32-bit extremes; scores stay far inside them, so plain `Int` models the
arithmetic. `regions.get` and division by `n = 0` are the fallible points. -/

def WIN_SCORE : Int := 10000

def LOSE_SCORE : Int := -10000

def MAX_DEPTH : Nat := 6

def intMin : Int := -2147483648

def intMax : Int := 2147483647

/-- The region loop of the solver-local `isSafe`. -/
def mxRegionLoop (regions : List Nat) (region : Nat) : List Nat → Option Bool
  | [] => some true
  | q :: rest =>
    match regions[q]? with
    | none => none
    | some rq => if rq = region then some false else mxRegionLoop regions region rest

/-- The attack loop of the solver-local `isSafe`. -/
def mxAttackLoop (n : Nat) (row col : Nat) : List Nat → Bool
  | [] => true
  | q :: rest =>
    if row = q / n ∨ col = q % n ∨
        (row : Int) - (col : Int) = ((q / n : Nat) : Int) - ((q % n : Nat) : Int) ∨
        row + col = q / n + q % n
    then false else mxAttackLoop n row col rest

/-- `MinimaxDpSolverService.isSafe`: the region loop runs first and alone can
reject; only then the attack loop runs. -/
def mxIsSafe (queenPositions : List Nat) (position : Nat) (n : Nat)
    (regions : List Nat) : Option Bool :=
  if n = 0 then none
  else
    match regions[position]? with
    | none => none
    | some region =>
      match mxRegionLoop regions region queenPositions with
      | none => none
      | some false => some false
      | some true => some (mxAttackLoop n (position / n) (position % n) queenPositions)

/-- The double scan of the solver-local `getAllValidPositions`. -/
def mxValidAux (n : Nat) (regions queens : List Nat) : List Nat → Option (List Nat)
  | [] => some []
  | p :: rest =>
    match mxIsSafe queens p n regions with
    | none => none
    | some true =>
      match mxValidAux n regions queens rest with
      | none => none
      | some l => some (p :: l)
    | some false => mxValidAux n regions queens rest

def getAllValidPositionsMx (gs : GameState) : Option (List Nat) :=
  mxValidAux gs.n gs.regions gs.queenPositions (List.range (gs.n * gs.n))

/-- The solver-local `makeMove`: append the queen and flip the player; every
other field is freshly defaulted. -/
def mxMakeMove (gs : GameState) (position : Nat) : GameState :=
  { n := gs.n, regions := gs.regions, queenPositions := gs.queenPositions ++ [position],
    currentPlayer := if gs.currentPlayer = 1 then 2 else 1, gameOver := false,
    winner := none, message := "", validMoves := [], player1Queens := 0,
    player2Queens := 0, solverType := "" }

/-- The safe-cell count of `evaluateGameState`. -/
def mxCountSafeAux (n : Nat) (regions queens : List Nat) : List Nat → Option Nat
  | [] => some 0
  | p :: rest =>
    match mxIsSafe queens p n regions with
    | none => none
    | some true =>
      match mxCountSafeAux n regions queens rest with
      | none => none
      | some c => some (c + 1)
    | some false => mxCountSafeAux n regions queens rest

/-- The center-control sum of `evaluateGameState` (`n - distance` may be
negative; Java int arithmetic). -/
def mxCenterControl (n : Nat) : List Nat → Int
  | [] => 0
  | pos :: rest =>
    ((n : Int) - (((((pos / n : Nat) : Int) - ((n / 2 : Nat) : Int)).natAbs
      + ((((pos % n : Nat) : Int) - ((n / 2 : Nat) : Int)).natAbs) : Nat) : Int))
      + mxCenterControl n rest

/-- `MinimaxDpSolverService.evaluateGameState`; the queen loop divides by `n`,
so it throws when `n = 0` and a queen is placed. -/
def evaluateGameState (gs : GameState) (isMaximizingPlayer : Bool) : Option Int :=
  match mxCountSafeAux gs.n gs.regions gs.queenPositions (List.range (gs.n * gs.n)) with
  | none => none
  | some avail =>
    if gs.n = 0 ∧ gs.queenPositions ≠ [] then none
    else
      let score := (avail : Int) * 10 + mxCenterControl gs.n gs.queenPositions
      some (if isMaximizingPlayer then score else -score)

/-- `generateKey`: sorted queens, current player, depth, maximizing flag (the
string encoding is injective on these components). -/
def MxKey : Type := List Nat × Nat × Nat × Bool
deriving DecidableEq

/-- `MinimaxResult` (score, move sequence, best move). -/
structure MinimaxResult where
  score : Int
  moveSequence : List Int
  bestMove : Int
deriving Repr, DecidableEq

def MxMemo : Type := List (MxKey × MinimaxResult)

def mxMemoLookup (k : MxKey) : MxMemo → Option MinimaxResult
  | [] => none
  | (k2, r) :: rest => if k2 = k then some r else mxMemoLookup k rest

def mxMemoInsert (k : MxKey) (r : MinimaxResult) (m : MxMemo) : MxMemo := (k, r) :: m

def mxKeyOf (gs : GameState) (depth : Nat) (isMax : Bool) : MxKey :=
  (sortAsc gs.queenPositions, gs.currentPlayer, depth, isMax)

/-- The move loop of `minimax`: update best score/move and `alpha`/`beta`,
breaking as soon as `beta ≤ alpha`. -/
def mxLoop (recurse : GameState → Nat → Bool → Int → Int → MxMemo →
      Option (MinimaxResult × MxMemo))
    (gs : GameState) (depth : Nat) (isMax : Bool) :
    List Nat → Int → Int → Int → Int → MxMemo → Option ((Int × Int) × MxMemo)
  | [], bestScore, bestMove, _, _, memo => some ((bestScore, bestMove), memo)
  | mv :: rest, bestScore, bestMove, alpha, beta, memo =>
    match recurse (mxMakeMove gs mv) (depth + 1) (!isMax) alpha beta memo with
    | none => none
    | some (res, memo2) =>
      if isMax then
        if bestScore < res.score then
          let alpha2 := max alpha res.score
          if beta ≤ alpha2 then some ((res.score, (mv : Int)), memo2)
          else mxLoop recurse gs depth isMax rest res.score (mv : Int) alpha2 beta memo2
        else
          if beta ≤ alpha then some ((bestScore, bestMove), memo2)
          else mxLoop recurse gs depth isMax rest bestScore bestMove alpha beta memo2
      else
        if res.score < bestScore then
          let beta2 := min beta res.score
          if beta2 ≤ alpha then some ((res.score, (mv : Int)), memo2)
          else mxLoop recurse gs depth isMax rest res.score (mv : Int) alpha beta2 memo2
        else
          if beta ≤ alpha then some ((bestScore, bestMove), memo2)
          else mxLoop recurse gs depth isMax rest bestScore bestMove alpha beta memo2

/-- `MinimaxDpSolverService.minimax` (single-move selection form); `fuel`
bounds the recursion depth. -/
def minimax : Nat → GameState → Nat → Bool → Int → Int → MxMemo →
    Option (MinimaxResult × MxMemo)
  | 0, _, _, _, _, _, _ => none
  | fuel + 1, gs, depth, isMax, alpha, beta, memo =>
    match mxMemoLookup (mxKeyOf gs depth isMax) memo with
    | some res => some (res, memo)
    | none =>
      match getAllValidPositionsMx gs with
      | none => none
      | some validMoves =>
        if validMoves = [] then
          let score := if isMax then LOSE_SCORE + (depth : Int) else WIN_SCORE - (depth : Int)
          some (⟨score, [], -1⟩, mxMemoInsert (mxKeyOf gs depth isMax) ⟨score, [], -1⟩ memo)
        else if MAX_DEPTH ≤ depth then
          match evaluateGameState gs isMax with
          | none => none
          | some score =>
            some (⟨score, [], -1⟩, mxMemoInsert (mxKeyOf gs depth isMax) ⟨score, [], -1⟩ memo)
        else
          match mxLoop (minimax fuel) gs depth isMax validMoves
              (if isMax then intMin else intMax) (-1) alpha beta memo with
          | none => none
          | some ((bestScore, bestMove), memo2) =>
            some (⟨bestScore, [], bestMove⟩,
              mxMemoInsert (mxKeyOf gs depth isMax) ⟨bestScore, [], bestMove⟩ memo2)

/-- The move loop of `minimaxSolve`, additionally carrying the best child
result (`null` modelled as `none`); pruning is only checked after a non-null
child. -/
def mxSolveLoop (recurse : GameState → Nat → Bool → Int → Int → MxMemo →
      Option (Option MinimaxResult × MxMemo))
    (gs : GameState) (depth : Nat) (isMax : Bool) :
    List Nat → Option MinimaxResult → Int → Int → Int → Int → MxMemo →
    Option ((Option MinimaxResult × Int × Int) × MxMemo)
  | [], best, bestScore, bestMove, _, _, memo => some ((best, bestScore, bestMove), memo)
  | mv :: rest, best, bestScore, bestMove, alpha, beta, memo =>
    match recurse (mxMakeMove gs mv) (depth + 1) (!isMax) alpha beta memo with
    | none => none
    | some (none, memo2) =>
      mxSolveLoop recurse gs depth isMax rest best bestScore bestMove alpha beta memo2
    | some (some child, memo2) =>
      if isMax then
        if bestScore < child.score then
          let alpha2 := max alpha child.score
          if beta ≤ alpha2 then some ((some child, child.score, (mv : Int)), memo2)
          else mxSolveLoop recurse gs depth isMax rest (some child) child.score (mv : Int)
            alpha2 beta memo2
        else
          if beta ≤ alpha then some ((best, bestScore, bestMove), memo2)
          else mxSolveLoop recurse gs depth isMax rest best bestScore bestMove alpha beta memo2
      else
        if child.score < bestScore then
          let beta2 := min beta child.score
          if beta2 ≤ alpha then some ((some child, child.score, (mv : Int)), memo2)
          else mxSolveLoop recurse gs depth isMax rest (some child) child.score (mv : Int)
            alpha beta2 memo2
        else
          if beta ≤ alpha then some ((best, bestScore, bestMove), memo2)
          else mxSolveLoop recurse gs depth isMax rest best bestScore bestMove alpha beta memo2

/-- `MinimaxDpSolverService.minimaxSolve`: memo check, terminal and
depth-cutoff bases, single-move shortcut, then the center-distance-sorted
alpha-beta loop. A `null` return is the inner `none`. -/
def minimaxSolve : Nat → GameState → Nat → Bool → Int → Int → MxMemo →
    Option (Option MinimaxResult × MxMemo)
  | 0, _, _, _, _, _, _ => none
  | fuel + 1, gs, depth, isMax, alpha, beta, memo =>
    match mxMemoLookup (mxKeyOf gs depth isMax) memo with
    | some res => some (some res, memo)
    | none =>
      match getAllValidPositionsMx gs with
      | none => none
      | some validMoves =>
        if validMoves = [] then
          let score := if isMax then LOSE_SCORE + (depth : Int) else WIN_SCORE - (depth : Int)
          some (some ⟨score, [], -1⟩,
            mxMemoInsert (mxKeyOf gs depth isMax) ⟨score, [], -1⟩ memo)
        else if MAX_DEPTH ≤ depth then
          match evaluateGameState gs isMax with
          | none => none
          | some score =>
            some (some ⟨score, [], -1⟩,
              mxMemoInsert (mxKeyOf gs depth isMax) ⟨score, [], -1⟩ memo)
        else
          match validMoves with
          | [mv] =>
            match minimaxSolve fuel (mxMakeMove gs mv) (depth + 1) (!isMax) alpha beta memo with
            | none => none
            | some (some child, memo2) =>
              some (some ⟨child.score, (mv : Int) :: child.moveSequence, (mv : Int)⟩,
                mxMemoInsert (mxKeyOf gs depth isMax)
                  ⟨child.score, (mv : Int) :: child.moveSequence, (mv : Int)⟩ memo2)
            | some (none, memo2) => some (none, memo2)
          | _ =>
            match mxSolveLoop (minimaxSolve fuel) gs depth isMax
                (sortByKey (fun a =>
                  (((a / gs.n : Nat) : Int) - ((gs.n / 2 : Nat) : Int)).natAbs
                    + (((a % gs.n : Nat) : Int) - ((gs.n / 2 : Nat) : Int)).natAbs) validMoves)
                none (if isMax then intMin else intMax) (-1) alpha beta memo with
            | none => none
            | some ((some best, bestScore, bestMove), memo2) =>
              some (some ⟨bestScore, bestMove :: best.moveSequence, bestMove⟩,
                mxMemoInsert (mxKeyOf gs depth isMax)
                  ⟨bestScore, bestMove :: best.moveSequence, bestMove⟩ memo2)
            | some ((none, _, _), memo2) => some (none, memo2)

/-- C8. Terminal minimax scores: when the player to move has no valid moves
(and the state is not already memoized), both `minimax` and `minimaxSolve`
return score `LOSE_SCORE + depth` on the maximizing player's turn and
`WIN_SCORE - depth` on the minimizing player's turn, with no move. -/
theorem c8_minimax_terminal_score (fuel : Nat) (gs : GameState) (depth : Nat)
    (isMax : Bool) (alpha beta : Int) (memo : MxMemo)
    (hkey : mxMemoLookup (mxKeyOf gs depth isMax) memo = none)
    (hvm : getAllValidPositionsMx gs = some []) :
    minimax (fuel + 1) gs depth isMax alpha beta memo
      = some (⟨if isMax then LOSE_SCORE + (depth : Int) else WIN_SCORE - (depth : Int),
            [], -1⟩,
          mxMemoInsert (mxKeyOf gs depth isMax)
            ⟨if isMax then LOSE_SCORE + (depth : Int) else WIN_SCORE - (depth : Int),
              [], -1⟩ memo) ∧
    minimaxSolve (fuel + 1) gs depth isMax alpha beta memo
      = some (some ⟨if isMax then LOSE_SCORE + (depth : Int)
              else WIN_SCORE - (depth : Int), [], -1⟩,
          mxMemoInsert (mxKeyOf gs depth isMax)
            ⟨if isMax then LOSE_SCORE + (depth : Int) else WIN_SCORE - (depth : Int),
              [], -1⟩ memo) := by
  constructor
  · simp only [minimax, hkey, hvm, if_true, if_pos rfl]
  · simp only [minimaxSolve, hkey, hvm, if_true, if_pos rfl]

/-- A full 1×1 board: the player to move has no valid cell left. -/
def c8Board : GameState :=
  { n := 1, regions := [0], queenPositions := [0], currentPlayer := 2,
    gameOver := false, winner := none, message := "", validMoves := [],
    player1Queens := 1, player2Queens := 0, solverType := "minimax" }

/-- Witness instantiating the terminal minimax scores at depth 3 on the
maximizing player's turn. -/
theorem c8_minimax_terminal_score_witness :
    (mxMemoLookup (mxKeyOf c8Board 3 true) [] = none ∧
     getAllValidPositionsMx c8Board = some []) ∧
    (minimax 1 c8Board 3 true 0 0 []
      = some (⟨if true then LOSE_SCORE + ((3 : Nat) : Int) else WIN_SCORE - ((3 : Nat) : Int),
            [], -1⟩,
          mxMemoInsert (mxKeyOf c8Board 3 true)
            ⟨if true then LOSE_SCORE + ((3 : Nat) : Int) else WIN_SCORE - ((3 : Nat) : Int),
              [], -1⟩ []) ∧
     minimaxSolve 1 c8Board 3 true 0 0 []
      = some (some ⟨if true then LOSE_SCORE + ((3 : Nat) : Int)
              else WIN_SCORE - ((3 : Nat) : Int), [], -1⟩,
          mxMemoInsert (mxKeyOf c8Board 3 true)
            ⟨if true then LOSE_SCORE + ((3 : Nat) : Int) else WIN_SCORE - ((3 : Nat) : Int),
              [], -1⟩ [])) :=
  ⟨⟨rfl, by decide⟩, c8_minimax_terminal_score 0 c8Board 3 true 0 0 [] rfl (by decide)⟩

end Queens
